import Mathlib

/-!
# gPHydro: hydrophobicity profiles

A shallow embedding of `gPHydro.go` (scale tables, min-max rescaling and the
sliding-window mean) together with theorems about it.

Modelling conventions.

* `float64` values are exact rationals (`ℚ`): the statements below are about
  exact arithmetic, without rounding, NaN or infinities.  A quotient whose
  divisor is zero, which is non-finite in IEEE-754, lies outside this model:
  the theorems about the value of a quotient assume a non-zero divisor.  The
  zero divisor of `rescale` is treated apart, in `rescale.ieee`, and the
  overflow of `max - min` in `rescale.float`.
* Go `int` values are integers (`Int`); `/` on them is division truncated
  towards zero (`Int.tdiv`).  Indices stay far below `2^63`, so no
  wrap-around is modelled.
* A Go `string` that is scanned byte by byte is a list of bytes; map keys and
  file contents are strings.
* A run-time panic (index or slice bounds out of range) is `none`.
-/

namespace GPHydro

/-! ## Data model -/

/-- The type `ScaleAA`, Go's `map[string]float64`, as an association list read
through `ScaleAA.index` and written through `ScaleAA.assign`. -/
abbrev ScaleAA := List (String × ℚ)

/-- The index expression `sc[k]` of a Go map: the stored value, or the zero value
`0.0` when `k` is not a key. -/
def ScaleAA.index (sc : ScaleAA) (k : String) : ℚ :=
  match List.lookup k sc with
  | some v => v
  | none => 0

/-- The assignment `sc[k] = v` of a Go map: overwrite the entry of `k` when
there is one, add an entry otherwise. -/
def ScaleAA.assign (sc : ScaleAA) (k : String) (v : ℚ) : ScaleAA :=
  match List.lookup k sc with
  | some _ => sc.map (fun p => if p.1 = k then (k, v) else p)
  | none => sc ++ [(k, v)]

/-- The conversion `string(b)` of a byte `b`: the string holding the single
code point whose number is `b`. -/
def byteString (b : UInt8) : String :=
  String.singleton (Char.ofNat b.toNat)

/-- The slice expression `x[b:e]` on a slice whose capacity equals its length:
it panics unless `0 ≤ b ≤ e ≤ len(x)`. -/
def slice (x : List ℚ) (b e : Int) : Option (List ℚ) :=
  if 0 ≤ b ∧ b ≤ e ∧ e ≤ (x.length : Int) then
    some ((x.drop b.toNat).take (e.toNat - b.toNat))
  else
    none

/-- The call `stat.Mean(x, nil)` of gonum: the sum of `x` divided by its
length. -/
def Mean (x : List ℚ) : ℚ :=
  x.sum / (x.length : ℚ)

/-! ## `ScaleAA.Apply` -/

/-- The first loop of `Apply`: `hydro[i] = sc[string(seq[i])]` for every byte
of `seq`. -/
def Apply.rawLookup (sc : ScaleAA) (seq : List UInt8) : List ℚ :=
  seq.map (fun b => ScaleAA.index sc (byteString b))

/-- The first condition of the second loop of `Apply`, for `n = len(hydro)`:
`(i >= (sw / 2)) && (i < (len(hydro) - (sw / 2)))`. -/
def Apply.fullWindow (n sw i : Int) : Bool :=
  decide (i ≥ Int.tdiv sw 2) && decide (i < n - Int.tdiv sw 2)

/-- The second condition of the second loop of `Apply`: `i < (sw / 2)`. -/
def Apply.leftEdge (sw i : Int) : Bool :=
  decide (i < Int.tdiv sw 2)

/-- The third condition of the second loop of `Apply`, for `n = len(hydro)`:
`i >= (len(hydro) - (sw / 2))`. -/
def Apply.rightEdge (n sw i : Int) : Bool :=
  decide (i ≥ n - Int.tdiv sw 2)

/-- One iteration of the second loop of `Apply` at index `i`: the three-way
`if / else if / else if` and the assignment to `hydrosw[i]`. -/
def Apply.smoothStep (hydro : List ℚ) (sw : Int) (i : Nat) (hydrosw : List ℚ) :
    Option (List ℚ) :=
  let n : Int := (hydro.length : Int)
  if Apply.fullWindow n sw i then
    match slice hydro ((i : Int) - Int.tdiv sw 2) ((i : Int) + Int.tdiv sw 2 + 1) with
    | some w => some (hydrosw.set i (Mean w))
    | none => none
  else if Apply.leftEdge sw i then
    match slice hydro 0 ((i : Int) + Int.tdiv sw 2 + 1) with
    | some w => some (hydrosw.set i (Mean w))
    | none => none
  else if Apply.rightEdge n sw i then
    match slice hydro ((i : Int) - Int.tdiv sw 2) n with
    | some w => some (hydrosw.set i (Mean w))
    | none => none
  else
    some hydrosw

/-- The second loop of `Apply` over the remaining indices `is`, threading the
array `hydrosw`; a panic in one iteration ends the run. -/
def Apply.smoothLoop (hydro : List ℚ) (sw : Int) : List Nat → List ℚ → Option (List ℚ)
  | [], hydrosw => some hydrosw
  | i :: is, hydrosw =>
    match Apply.smoothStep hydro sw i hydrosw with
    | some next => Apply.smoothLoop hydro sw is next
    | none => none

/-- The method `func (sc ScaleAA) Apply(seq string, sw int)`: the pair
`(hydro, hydrosw)`, or `none` when a slice expression panics. -/
def Apply (sc : ScaleAA) (seq : List UInt8) (sw : Int) : Option (List ℚ × List ℚ) :=
  let hydro := Apply.rawLookup sc seq
  match Apply.smoothLoop hydro sw (List.range hydro.length) (List.replicate seq.length 0) with
  | some hydrosw => some (hydro, hydrosw)
  | none => none

/-- The bounds `b, e` of the slice `hydro[b:e]` that the second loop of `Apply`
takes at index `i`, for `n = len(hydro)`; `none` when no branch is entered. -/
def Apply.bounds (n sw i : Int) : Option (Int × Int) :=
  if Apply.fullWindow n sw i then
    some (i - Int.tdiv sw 2, i + Int.tdiv sw 2 + 1)
  else if Apply.leftEdge sw i then
    some (0, i + Int.tdiv sw 2 + 1)
  else if Apply.rightEdge n sw i then
    some (i - Int.tdiv sw 2, n)
  else
    none

/-! ## `rescale` -/

/-- The first loop of `rescale` over the elements after `sc[0]`, threading the
pair `(max, min)`. -/
def rescale.scan : List ℚ → ℚ × ℚ → ℚ × ℚ
  | [], acc => acc
  | x :: rest, (max, min) =>
    let max := if x > max then x else max
    let min := if x < min then x else min
    rescale.scan rest (max, min)

/-- The function `func rescale(sc []float64, inv bool) []float64`; `none` is the
index panic of `sc[0]` on an empty slice. -/
def rescale (sc : List ℚ) (inv : Bool) : Option (List ℚ) :=
  match sc with
  | [] => none
  | x :: rest =>
    let mm := rescale.scan rest (x, x)
    let max := mm.1
    let min := mm.2
    if inv then
      some (sc.map (fun v => 1 - ((v - min) / (max - min))))
    else
      some (sc.map (fun v => (v - min) / (max - min)))

/-! ## `rescale` with the non-finite quotients of IEEE-754 -/

/-- A `float64` result that may be non-finite: a finite value (an exact
rational), NaN, or an infinity. -/
inductive Float64 where
  | finite (q : ℚ)
  | nan
  | posInf
  | negInf
deriving DecidableEq

/-- The quotient `a / b` of two finite `float64` values under IEEE-754, where a
zero divisor is `+0` (as is `max - min` for `max = min`): `0 / 0` is NaN and
`a / 0` is the infinity of the sign of `a`. -/
def Float64.div (a b : ℚ) : Float64 :=
  if b = 0 then
    if a = 0 then .nan
    else if 0 < a then .posInf
    else .negInf
  else .finite (a / b)

/-- The difference `1.0 - q` under IEEE-754. -/
def Float64.oneMinus : Float64 → Float64
  | .finite q => .finite (1 - q)
  | .nan => .nan
  | .posInf => .negInf
  | .negInf => .posInf

/-- The function `rescale` once more, on finite inputs, with the quotient of
IEEE-754 in place of the exact one: the same scan and the same two loops, no
test of the divisor. -/
def rescale.ieee (sc : List ℚ) (inv : Bool) : Option (List Float64) :=
  match sc with
  | [] => none
  | x :: rest =>
    let mm := rescale.scan rest (x, x)
    let max := mm.1
    let min := mm.2
    if inv then
      some (sc.map (fun v => Float64.oneMinus (Float64.div (v - min) (max - min))))
    else
      some (sc.map (fun v => Float64.div (v - min) (max - min)))

/-! ## `rescale` with the overflow of `float64` -/

/-- The least magnitude that overflows to an infinity under round-to-nearest:
`2^1024 - 2^970`, half an ulp above the greatest finite `float64`. -/
def Float64.overflow : ℚ :=
  2 ^ 1024 - 2 ^ 970

/-- A result computed exactly and then stored as a `float64`: an infinity from
the overflow threshold on, the value itself below it (the rounding of finite
results is not modelled). -/
def Float64.ofExact (q : ℚ) : Float64 :=
  if Float64.overflow ≤ q then .posInf
  else if q ≤ -Float64.overflow then .negInf
  else .finite q

/-- The comparison `x < y` of two `float64` values: false when an operand is
NaN. -/
def Float64.lt : Float64 → Float64 → Bool
  | .finite a, .finite b => decide (a < b)
  | .finite _, .posInf => true
  | .finite _, .negInf => false
  | .posInf, .finite _ => false
  | .posInf, .posInf => false
  | .posInf, .negInf => false
  | .negInf, .finite _ => true
  | .negInf, .posInf => true
  | .negInf, .negInf => false
  | .nan, _ => false
  | _, .nan => false

/-- The difference `x - y` of two `float64` values under IEEE-754: exact on
finite operands up to overflow, NaN for an infinity minus itself. -/
def Float64.sub : Float64 → Float64 → Float64
  | .finite a, .finite b => Float64.ofExact (a - b)
  | .finite _, .posInf => .negInf
  | .finite _, .negInf => .posInf
  | .posInf, .finite _ => .posInf
  | .posInf, .posInf => .nan
  | .posInf, .negInf => .posInf
  | .negInf, .finite _ => .negInf
  | .negInf, .posInf => .negInf
  | .negInf, .negInf => .nan
  | .nan, _ => .nan
  | _, .nan => .nan

/-- The quotient `x / y` of two `float64` values under IEEE-754: on finite
operands the quotient of `Float64.div` up to overflow, zero for a finite value
over an infinity, NaN for an infinity over an infinity; a zero is taken as `+0`. -/
def Float64.quot : Float64 → Float64 → Float64
  | .finite a, .finite b =>
    match Float64.div a b with
    | .finite q => Float64.ofExact q
    | r => r
  | .finite _, .posInf => .finite 0
  | .finite _, .negInf => .finite 0
  | .posInf, .finite b => if 0 ≤ b then .posInf else .negInf
  | .negInf, .finite b => if 0 ≤ b then .negInf else .posInf
  | .posInf, .posInf => .nan
  | .posInf, .negInf => .nan
  | .negInf, .posInf => .nan
  | .negInf, .negInf => .nan
  | .nan, _ => .nan
  | _, .nan => .nan

/-- The first loop of `rescale` on `float64` values: `sc[i] > max` and
`sc[i] < min` are the comparisons of IEEE-754. -/
def rescale.floatScan : List Float64 → Float64 × Float64 → Float64 × Float64
  | [], acc => acc
  | x :: rest, (max, min) =>
    let max := if Float64.lt max x then x else max
    let min := if Float64.lt x min then x else min
    rescale.floatScan rest (max, min)

/-- The function `rescale` on `float64` values that may be non-finite, with the
subtraction and division of IEEE-754 up to the rounding of finite results: the
same scan and the same two loops. -/
def rescale.float (sc : List Float64) (inv : Bool) : Option (List Float64) :=
  match sc with
  | [] => none
  | x :: rest =>
    let mm := rescale.floatScan rest (x, x)
    let max := mm.1
    let min := mm.2
    if inv then
      some (sc.map (fun v =>
        Float64.sub (.finite 1) (Float64.quot (Float64.sub v min) (Float64.sub max min))))
    else
      some (sc.map (fun v => Float64.quot (Float64.sub v min) (Float64.sub max min)))

/-! ## `readScaleAA` -/

/-- What a call of `readScaleAA` can do: return a table with a nil error, return
`nil` with an error, or panic. -/
inductive Outcome where
  | ok (table : ScaleAA)
  | failed (err : String)
  | panicked
deriving DecidableEq

/-- The slice `aa` of `readScaleAA`: the one-letter codes in their fixed order. -/
def readScaleAA.aa : List String :=
  ["A", "C", "D", "E", "F", "G", "H", "I", "K", "L", "M", "N", "P",
    "Q", "R", "S", "T", "V", "W", "Y"]

/-- The `switch` of `readScaleAA`: the data file `fn` of the scale name and the
flag `inv`; the default case leaves `fn` empty. -/
def readScaleAA.catalog (sc : String) : String × Bool :=
  if sc = "Argos" then ("./scales/ARGP820101.dat", false)
  else if sc = "Black" then ("./scales/BLAS910101.dat", false)
  else if sc = "Casari" then ("./scales/CASG920101.dat", false)
  else if sc = "Cid" then ("./scales/CIDH920105.dat", false)
  else if sc = "Eisenberg" then ("./scales/EISD840101.dat", false)
  else if sc = "Engelman" then ("./scales/ENGD860101.dat", true)
  else if sc = "Fasman" then ("./scales/FASG890101.dat", true)
  else if sc = "Fauchere" then ("./scales/FAUJ830101.dat", false)
  else if sc = "Goldsack" then ("./scales/GOLD730101.dat", false)
  else if sc = "Hopp" then ("./scales/HOPT810101.dat", true)
  else if sc = "Jones" then ("./scales/JOND750101.dat", false)
  else if sc = "Kyte" then ("./scales/KYTJ820101.dat", false)
  else if sc = "Levitt" then ("./scales/LEVM760101.dat", true)
  else if sc = "Ponnuswamy" then ("./scales/PONP930101.dat", false)
  else if sc = "Prabhakaran" then ("./scales/PRAM900101.dat", true)
  else if sc = "Radzicka" then ("./scales/RADA880108.dat", false)
  else if sc = "Rose" then ("./scales/ROSG850102.dat", false)
  else if sc = "Wolfenden" then ("./scales/WOLR790101.dat", false)
  else if sc = "Zimmerman" then ("./scales/ZIMJ680101.dat", false)
  else ("", false)

/-- The call `strings.Split(s, "\t")` of the Go library on the characters of
`s`, with `cur` the reversed field being read: one field more than there are
tab characters. -/
def readScaleAA.split : List Char → List Char → List String
  | [], cur => [String.mk cur.reverse]
  | c :: cs, cur =>
    if c = '\t' then String.mk cur.reverse :: readScaleAA.split cs []
    else readScaleAA.split cs (c :: cur)

/-- The parsing loop of `readScaleAA`: `parseField` stands for
`strconv.ParseFloat(strings.TrimSpace(·), 64)` of the Go library; the first
field that fails ends the loop with its error. -/
def readScaleAA.parse (parseField : String → Except String ℚ) :
    List String → Except String (List ℚ)
  | [] => .ok []
  | f :: rest =>
    match parseField f with
    | .error e => .error e
    | .ok v =>
      match readScaleAA.parse parseField rest with
      | .error e => .error e
      | .ok vs => .ok (v :: vs)

/-- The last loop of `readScaleAA` from index `i` on: `aaScale[aa[i]] = scale[i]`;
`none` is the index panic of `aa[i]`. -/
def readScaleAA.fill : List ℚ → Nat → ScaleAA → Option ScaleAA
  | [], _, aaScale => some aaScale
  | v :: rest, i, aaScale =>
    match readScaleAA.aa[i]? with
    | some k => readScaleAA.fill rest (i + 1) (ScaleAA.assign aaScale k v)
    | none => none

/-- The function `func readScaleAA(sc string, norm bool) (ScaleAA, error)`.
`readFile` stands for `ioutil.ReadFile` on the path of the data file. -/
def readScaleAA (readFile : String → Except String String)
    (parseField : String → Except String ℚ) (sc : String) (norm : Bool) : Outcome :=
  let fn := (readScaleAA.catalog sc).1
  let inv := (readScaleAA.catalog sc).2
  match readFile fn with
  | .error _ => .panicked
  | .ok fScale =>
    match readScaleAA.parse parseField (readScaleAA.split fScale.data []) with
    | .error e => .failed e
    | .ok scale =>
      match (if norm then rescale scale inv else some scale) with
      | none => .panicked
      | some scale =>
        match readScaleAA.fill scale 0 [] with
        | some aaScale => .ok aaScale
        | none => .panicked

/-! ## Auxiliary definitions for the statements -/

/-- The values averaged at index `i` for half-width `h` when no slice panics:
`hydro[i-h .. i+h]` clipped to the bounds of `hydro`. -/
def window (hydro : List ℚ) (h i : ℕ) : List ℚ :=
  (hydro.drop (i - h)).take (min (i + h + 1) hydro.length - (i - h))

/-- Exactly one of three propositions holds. -/
def ExactlyOne (a b c : Prop) : Prop :=
  (a ∧ ¬b ∧ ¬c) ∨ (¬a ∧ b ∧ ¬c) ∨ (¬a ∧ ¬b ∧ c)

/-- A list is non-degenerate when two of its elements differ. -/
def NonDegenerate (values : List ℚ) : Prop :=
  ∃ a ∈ values, ∃ b ∈ values, a ≠ b

/-- `mn` is the least element of `values`. -/
def IsMinOf (values : List ℚ) (mn : ℚ) : Prop :=
  mn ∈ values ∧ ∀ v ∈ values, mn ≤ v

/-- `mx` is the greatest element of `values`. -/
def IsMaxOf (values : List ℚ) (mx : ℚ) : Prop :=
  mx ∈ values ∧ ∀ v ∈ values, v ≤ mx

/-- A `float64` value is finite and within `[0, 1]`. -/
def Float64.InUnit (x : Float64) : Prop :=
  ∃ q, x = .finite q ∧ 0 ≤ q ∧ q ≤ 1

/-- No difference of two elements of `values` reaches the overflow threshold:
`max - min` does not overflow. -/
def NoOverflow (values : List ℚ) : Prop :=
  ∀ a ∈ values, ∀ b ∈ values, a - b < Float64.overflow

/-- The scale names that the `switch` of `readScaleAA` handles. -/
def catalogNames : List String :=
  ["Argos", "Black", "Casari", "Cid", "Eisenberg", "Engelman", "Fasman", "Fauchere",
    "Goldsack", "Hopp", "Jones", "Kyte", "Levitt", "Ponnuswamy", "Prabhakaran", "Radzicka",
    "Rose", "Wolfenden", "Zimmerman"]

/-! ## Lemmas on `Apply` -/

/-- On a non-negative width the truncated half is the half of the natural number. -/
theorem tdiv_two_cast (sw : ℕ) : Int.tdiv (sw : ℤ) 2 = ((sw / 2 : ℕ) : ℤ) := by
  rw [Int.tdiv_eq_ediv (by omega) (by omega)]
  omega

/-- The sum of `m` consecutive elements from index `b` on. -/
theorem sum_take_drop (l : List ℚ) (b m : ℕ) :
    ((l.drop b).take m).sum = ∑ k in Finset.range m, l.getD (b + k) 0 := by
  induction m with
  | zero => simp
  | succ m ih =>
    rw [List.take_succ, List.sum_append, ih, Finset.sum_range_succ]
    congr 1
    rw [List.getElem?_drop, List.getD_eq_getElem?_getD]
    cases l[b + m]? <;> simp

/-- A slice that stays within the list has the length asked for. -/
theorem length_take_drop (l : List ℚ) (b m : ℕ) (h : b + m ≤ l.length) :
    ((l.drop b).take m).length = m := by
  simp only [List.length_take, List.length_drop]
  omega

/-- When the list is at least `2 * (sw / 2)` long, no branch of an iteration
panics and each one stores the mean of the clipped window. -/
theorem smoothStep_of_fits (hydro : List ℚ) (sw i : ℕ) (hydrosw : List ℚ)
    (hN : 2 * (sw / 2) ≤ hydro.length) (hi : i < hydro.length) :
    Apply.smoothStep hydro (sw : ℤ) i hydrosw
      = some (hydrosw.set i (Mean (window hydro (sw / 2) i))) := by
  unfold Apply.smoothStep Apply.fullWindow Apply.leftEdge Apply.rightEdge
  simp only [tdiv_two_cast, Bool.and_eq_true, decide_eq_true_eq]
  generalize sw / 2 = h at hN
  unfold window slice
  split_ifs with h1 h2 h3 h4 h5 h6 <;> first
    | omega
    | (simp only [Option.some.injEq]
       congr 3
       all_goals first
         | omega
         | (congr 1; omega))

/-- When the list is at least `2 * (sw / 2)` long the loop runs to its end. -/
theorem smoothLoop_of_fits (hydro : List ℚ) (sw : ℕ) (hN : 2 * (sw / 2) ≤ hydro.length)
    (is : List ℕ) (his : ∀ i ∈ is, i < hydro.length) (hydrosw : List ℚ) :
    Apply.smoothLoop hydro (sw : ℤ) is hydrosw
      = some (is.foldl (fun acc i => acc.set i (Mean (window hydro (sw / 2) i))) hydrosw) := by
  induction is generalizing hydrosw with
  | nil => rfl
  | cons i is ih =>
    have hi : i < hydro.length := his i (List.mem_cons_self _ _)
    simp only [Apply.smoothLoop, smoothStep_of_fits hydro sw i hydrosw hN hi, List.foldl_cons]
    exact ih (fun j hj => his j (List.mem_cons_of_mem _ hj)) _

/-- Assignments to elements keep the length of the array. -/
theorem foldl_set_length (f : ℕ → ℚ) (is : List ℕ) (l : List ℚ) :
    (is.foldl (fun acc i => acc.set i (f i)) l).length = l.length := by
  induction is generalizing l with
  | nil => rfl
  | cons i is ih => simp [ih]

/-- An index that the loop does not visit keeps its element. -/
theorem foldl_set_skip (f : ℕ → ℚ) (j : ℕ) (is : List ℕ) (l : List ℚ) (hj : j ∉ is) :
    (is.foldl (fun acc i => acc.set i (f i)) l)[j]? = l[j]? := by
  induction is generalizing l with
  | nil => rfl
  | cons k ks ih =>
    simp only [List.foldl_cons]
    rw [ih _ (fun h => hj (List.mem_cons_of_mem _ h)), List.getElem?_set_ne]
    intro hkj
    exact hj (hkj ▸ List.mem_cons_self _ _)

/-- An index that the loop visits holds the value assigned there. -/
theorem foldl_set_getElem? (f : ℕ → ℚ) (is : List ℕ) (l : List ℚ) (j : ℕ)
    (hj : j < l.length) (hmem : j ∈ is) :
    (is.foldl (fun acc i => acc.set i (f i)) l)[j]? = some (f j) := by
  induction is generalizing l with
  | nil => simp at hmem
  | cons i is ih =>
    simp only [List.foldl_cons]
    by_cases hin : j ∈ is
    · exact ih (l.set i (f i)) (by simpa using hj) hin
    · have hji : j = i := by
        rcases List.mem_cons.mp hmem with h | h
        · exact h
        · exact absurd h hin
      subst hji
      rw [foldl_set_skip f j is _ hin]
      simp [hj]

/-- The array `hydro` is as long as the sequence. -/
theorem rawLookup_length (sc : ScaleAA) (seq : List UInt8) :
    (Apply.rawLookup sc seq).length = seq.length := by
  simp [Apply.rawLookup]

/-- When the sequence is at least `2 * (sw / 2)` long no slice panics, and `Apply`
returns the raw values with the mean of the clipped window at every index. -/
theorem Apply_of_fits (sc : ScaleAA) (seq : List UInt8) (sw : ℕ)
    (hN : 2 * (sw / 2) ≤ seq.length) :
    Apply sc seq (sw : ℤ)
      = some (Apply.rawLookup sc seq,
          (List.range seq.length).map
            (fun i => Mean (window (Apply.rawLookup sc seq) (sw / 2) i))) := by
  have hlen := rawLookup_length sc seq
  unfold Apply
  simp only [hlen]
  rw [smoothLoop_of_fits _ sw (by rw [hlen]; exact hN) _
    (by intro i hi; rw [hlen]; exact List.mem_range.mp hi)]
  simp only [Option.some.injEq, Prod.mk.injEq, true_and]
  apply List.ext_getElem?
  intro j
  by_cases hj : j < seq.length
  · rw [foldl_set_getElem? _ _ _ j (by simpa using hj) (List.mem_range.mpr hj)]
    simp [hj]
  · have h1 : (List.foldl
        (fun acc i => acc.set i (Mean (window (Apply.rawLookup sc seq) (sw / 2) i)))
        (List.replicate seq.length 0) (List.range seq.length)).length ≤ j := by
      rw [foldl_set_length]; simp; omega
    rw [List.getElem?_eq_none h1, List.getElem?_eq_none (by simp; omega)]

/-- The mean of the clipped window as an explicit sum: `m` values starting at
index `b`. -/
theorem Mean_window (hydro : List ℚ) (h i b m : ℕ) (hb : b = i - h)
    (hm : m = min (i + h + 1) hydro.length - (i - h)) (hlt : i < hydro.length) :
    Mean (window hydro h i)
      = (∑ k in Finset.range m, hydro.getD (b + k) 0) / (m : ℚ) := by
  subst hb hm
  unfold Mean window
  rw [sum_take_drop, length_take_drop _ _ _ (by omega)]

/-! ## Lemmas on `rescale` and `readScaleAA` -/

/-- Invariant of the scan of `rescale`: the pair it returns bounds the accumulators
and the scanned elements, and each component is an accumulator or an element. -/
theorem scan_spec (rest : List ℚ) (mx mn : ℚ) :
    ((rescale.scan rest (mx, mn)).1 = mx ∨ (rescale.scan rest (mx, mn)).1 ∈ rest) ∧
    mx ≤ (rescale.scan rest (mx, mn)).1 ∧
    (∀ v ∈ rest, v ≤ (rescale.scan rest (mx, mn)).1) ∧
    ((rescale.scan rest (mx, mn)).2 = mn ∨ (rescale.scan rest (mx, mn)).2 ∈ rest) ∧
    (rescale.scan rest (mx, mn)).2 ≤ mn ∧
    (∀ v ∈ rest, (rescale.scan rest (mx, mn)).2 ≤ v) := by
  induction rest generalizing mx mn with
  | nil => simp [rescale.scan]
  | cons x rest ih =>
    simp only [rescale.scan]
    obtain ⟨h1, h2, h3, h4, h5, h6⟩ := ih (if x > mx then x else mx) (if x < mn then x else mn)
    refine ⟨?_, ?_, ?_, ?_, ?_, ?_⟩
    · rcases h1 with h | h
      · rw [h]; split_ifs <;> simp
      · exact Or.inr (List.mem_cons_of_mem _ h)
    · refine le_trans ?_ h2
      split_ifs with h <;> [exact le_of_lt h; exact le_refl _]
    · intro v hv
      rcases List.mem_cons.mp hv with h | h
      · subst h
        refine le_trans ?_ h2
        split_ifs with h <;> [exact le_refl _; exact not_lt.mp h]
      · exact h3 v h
    · rcases h4 with h | h
      · rw [h]; split_ifs <;> simp
      · exact Or.inr (List.mem_cons_of_mem _ h)
    · refine le_trans h5 ?_
      split_ifs with h <;> [exact le_of_lt h; exact le_refl _]
    · intro v hv
      rcases List.mem_cons.mp hv with h | h
      · subst h
        refine le_trans h5 ?_
        split_ifs with h <;> [exact le_refl _; exact not_lt.mp h]
      · exact h6 v h

/-- The scan of `rescale` started at the first element finds the greatest and
the least element of a non-empty list. -/
theorem scan_extrema (x : ℚ) (rest : List ℚ) :
    IsMaxOf (x :: rest) (rescale.scan rest (x, x)).1 ∧
    IsMinOf (x :: rest) (rescale.scan rest (x, x)).2 := by
  obtain ⟨h1, h2, h3, h4, h5, h6⟩ := scan_spec rest x x
  refine ⟨⟨?_, ?_⟩, ⟨?_, ?_⟩⟩
  · rcases h1 with h | h
    · rw [h]; exact List.mem_cons_self _ _
    · exact List.mem_cons_of_mem _ h
  · intro v hv
    rcases List.mem_cons.mp hv with h | h
    · rw [h]; exact h2
    · exact h3 v h
  · rcases h4 with h | h
    · rw [h]; exact List.mem_cons_self _ _
    · exact List.mem_cons_of_mem _ h
  · intro v hv
    rcases List.mem_cons.mp hv with h | h
    · rw [h]; exact h5
    · exact h6 v h

/-- The result of `rescale` on a non-empty list, with the extrema named. -/
theorem rescale_eq (values : List ℚ) (inv : Bool) (hne : values ≠ []) :
    ∃ mn mx, IsMinOf values mn ∧ IsMaxOf values mx ∧
      rescale values inv = some (values.map (fun v =>
        if inv then 1 - (v - mn) / (mx - mn) else (v - mn) / (mx - mn))) := by
  cases values with
  | nil => exact absurd rfl hne
  | cons x rest =>
    obtain ⟨hmax, hmin⟩ := scan_extrema x rest
    refine ⟨_, _, hmin, hmax, ?_⟩
    cases inv <;> simp [rescale]

/-- The least element of a list is unique. -/
theorem IsMinOf_unique {values : List ℚ} {a b : ℚ} (ha : IsMinOf values a)
    (hb : IsMinOf values b) : a = b :=
  le_antisymm (ha.2 b hb.1) (hb.2 a ha.1)

/-- The greatest element of a list is unique. -/
theorem IsMaxOf_unique {values : List ℚ} {a b : ℚ} (ha : IsMaxOf values a)
    (hb : IsMaxOf values b) : a = b :=
  le_antisymm (hb.2 a ha.1) (ha.2 b hb.1)

/-- In a non-degenerate list the least element is below the greatest. -/
theorem extrema_lt {values : List ℚ} {mn mx : ℚ} (hnd : NonDegenerate values)
    (hmn : IsMinOf values mn) (hmx : IsMaxOf values mx) : mn < mx := by
  obtain ⟨a, ha, b, hb, hab⟩ := hnd
  rcases lt_or_gt_of_ne hab with h | h
  · exact lt_of_le_of_lt (hmn.2 a ha) (lt_of_lt_of_le h (hmx.2 b hb))
  · exact lt_of_le_of_lt (hmn.2 b hb) (lt_of_lt_of_le h (hmx.2 a ha))

/-- The result of `rescale` in terms of any least and greatest element. -/
theorem rescale_of_extrema {values : List ℚ} {mn mx : ℚ} (inv : Bool)
    (hmn : IsMinOf values mn) (hmx : IsMaxOf values mx) :
    rescale values inv = some (values.map (fun v =>
      if inv then 1 - (v - mn) / (mx - mn) else (v - mn) / (mx - mn))) := by
  obtain ⟨mn', mx', hmn', hmx', h⟩ :=
    rescale_eq values inv (List.ne_nil_of_mem hmn.1)
  rw [h, IsMinOf_unique hmn' hmn, IsMaxOf_unique hmx' hmx]

/-- A non-empty list has a least and a greatest element. -/
theorem exists_extrema {values : List ℚ} (hne : values ≠ []) :
    ∃ mn mx, IsMinOf values mn ∧ IsMaxOf values mx := by
  obtain ⟨mn, mx, hmn, hmx, _⟩ := rescale_eq values false hne
  exact ⟨mn, mx, hmn, hmx⟩

/-- A non-degenerate list is not empty. -/
theorem NonDegenerate.ne_nil {values : List ℚ} (hnd : NonDegenerate values) : values ≠ [] := by
  obtain ⟨a, ha, _⟩ := hnd
  exact List.ne_nil_of_mem ha

/-- The min-max quotient of a value between the bounds is in `[0, 1]`. -/
theorem unit_quotient {mn mx v : ℚ} (hlt : mn < mx) (h1 : mn ≤ v) (h2 : v ≤ mx) :
    0 ≤ (v - mn) / (mx - mn) ∧ (v - mn) / (mx - mn) ≤ 1 := by
  have hpos : 0 < mx - mn := sub_pos.mpr hlt
  refine ⟨div_nonneg (sub_nonneg.mpr h1) hpos.le, ?_⟩
  rw [div_le_one hpos]
  linarith

/-- Every element of the result of `rescale` on a non-degenerate list is in
`[0, 1]`. -/
theorem rescale_unit_interval {values : List ℚ} (inv : Bool) (hnd : NonDegenerate values) :
    ∃ out, rescale values inv = some out ∧ out.length = values.length ∧
      ∀ y ∈ out, 0 ≤ y ∧ y ≤ 1 := by
  obtain ⟨mn, mx, hmn, hmx⟩ := exists_extrema hnd.ne_nil
  have hlt := extrema_lt hnd hmn hmx
  refine ⟨_, rescale_of_extrema inv hmn hmx, by simp, fun y hy => ?_⟩
  obtain ⟨v, hv, rfl⟩ := List.mem_map.mp hy
  obtain ⟨h0, h1⟩ := unit_quotient hlt (hmn.2 v hv) (hmx.2 v hv)
  cases inv
  · simpa using ⟨h0, h1⟩
  · simp only [if_true]
    constructor <;> linarith

/-- An entry of a map after an assignment is an old entry or the assigned one. -/
theorem mem_assign {m : ScaleAA} {k : String} {v : ℚ} {p : String × ℚ}
    (hp : p ∈ ScaleAA.assign m k v) : p ∈ m ∨ p = (k, v) := by
  unfold ScaleAA.assign at hp
  split at hp
  · obtain ⟨q, hq, rfl⟩ := List.mem_map.mp hp
    split_ifs
    · exact Or.inr rfl
    · exact Or.inl hq
  · rcases List.mem_append.mp hp with h | h
    · exact Or.inl h
    · exact Or.inr (by simpa using h)

/-- Every entry of the table after the last loop of `readScaleAA` was there before
or holds one of the values. -/
theorem fill_mem (vs : List ℚ) (i : ℕ) (m t : ScaleAA)
    (h : readScaleAA.fill vs i m = some t) : ∀ p ∈ t, p ∈ m ∨ p.2 ∈ vs := by
  induction vs generalizing i m with
  | nil =>
    simp only [readScaleAA.fill, Option.some.injEq] at h
    subst h
    exact fun p hp => Or.inl hp
  | cons v rest ih =>
    simp only [readScaleAA.fill] at h
    split at h
    · rename_i k _
      intro p hp
      rcases ih (i + 1) _ h p hp with h' | h'
      · rcases mem_assign h' with h'' | h''
        · exact Or.inl h''
        · exact Or.inr (by rw [h'']; exact List.mem_cons_self _ _)
      · exact Or.inr (List.mem_cons_of_mem _ h')
    · exact absurd h (by simp)

/-- The last loop of `readScaleAA` does not panic while the index stays below 20. -/
theorem fill_some (vs : List ℚ) (i : ℕ) (m : ScaleAA) (hlen : i + vs.length ≤ 20) :
    ∃ t, readScaleAA.fill vs i m = some t := by
  induction vs generalizing i m with
  | nil => exact ⟨m, rfl⟩
  | cons v rest ih =>
    simp only [List.length_cons] at hlen
    have hi : i < readScaleAA.aa.length := by
      have : readScaleAA.aa.length = 20 := rfl
      omega
    simp only [readScaleAA.fill, List.getElem?_eq_getElem hi]
    exact ih (i + 1) _ (by omega)

/-- The result of `rescale` without inversion has least element 0 and greatest
element 1. -/
theorem normalized_extrema {values : List ℚ} {mn mx : ℚ} (hlt : mn < mx)
    (hmn : IsMinOf values mn) (hmx : IsMaxOf values mx) :
    IsMinOf (values.map (fun v => (v - mn) / (mx - mn))) 0 ∧
    IsMaxOf (values.map (fun v => (v - mn) / (mx - mn))) 1 := by
  have hne : mx - mn ≠ 0 := (sub_pos.mpr hlt).ne'
  refine ⟨⟨List.mem_map.mpr ⟨mn, hmn.1, by simp⟩, fun y hy => ?_⟩,
    ⟨List.mem_map.mpr ⟨mx, hmx.1, div_self hne⟩, fun y hy => ?_⟩⟩
  · obtain ⟨v, hv, rfl⟩ := List.mem_map.mp hy
    exact (unit_quotient hlt (hmn.2 v hv) (hmx.2 v hv)).1
  · obtain ⟨v, hv, rfl⟩ := List.mem_map.mp hy
    exact (unit_quotient hlt (hmn.2 v hv) (hmx.2 v hv)).2

/-- The result of `rescale` with inversion has least element 0 and greatest
element 1. -/
theorem inverted_extrema {values : List ℚ} {mn mx : ℚ} (hlt : mn < mx)
    (hmn : IsMinOf values mn) (hmx : IsMaxOf values mx) :
    IsMinOf (values.map (fun v => 1 - (v - mn) / (mx - mn))) 0 ∧
    IsMaxOf (values.map (fun v => 1 - (v - mn) / (mx - mn))) 1 := by
  have hne : mx - mn ≠ 0 := (sub_pos.mpr hlt).ne'
  refine ⟨⟨List.mem_map.mpr ⟨mx, hmx.1, by simp [div_self hne]⟩, fun y hy => ?_⟩,
    ⟨List.mem_map.mpr ⟨mn, hmn.1, by simp⟩, fun y hy => ?_⟩⟩
  · obtain ⟨v, hv, rfl⟩ := List.mem_map.mp hy
    have := (unit_quotient hlt (hmn.2 v hv) (hmx.2 v hv)).2
    linarith
  · obtain ⟨v, hv, rfl⟩ := List.mem_map.mp hy
    have := (unit_quotient hlt (hmn.2 v hv) (hmx.2 v hv)).1
    linarith

/-- The mean of a non-empty list of equal values is that value. -/
theorem Mean_replicate (m : ℕ) (v : ℚ) (hm : 0 < m) : Mean (List.replicate m v) = v := by
  unfold Mean
  have : (m : ℚ) ≠ 0 := by exact_mod_cast hm.ne'
  simp only [List.sum_replicate, List.length_replicate, nsmul_eq_mul]
  field_simp

/-! ## Further lemmas on `Apply` -/

/-- An iteration of the second loop in terms of the slice bounds of its branch. -/
theorem smoothStep_eq_bounds (hydro : List ℚ) (sw : ℤ) (i : ℕ) (hydrosw : List ℚ) :
    Apply.smoothStep hydro sw i hydrosw
      = match Apply.bounds hydro.length sw i with
        | some be =>
          match slice hydro be.1 be.2 with
          | some w => some (hydrosw.set i (Mean w))
          | none => none
        | none => some hydrosw := by
  simp only [Apply.smoothStep, Apply.bounds]
  split_ifs <;> rfl

/-- An iteration keeps the length of the array `hydrosw`. -/
theorem smoothStep_length (hydro : List ℚ) (sw : ℤ) (i : ℕ) (hydrosw next : List ℚ)
    (h : Apply.smoothStep hydro sw i hydrosw = some next) : next.length = hydrosw.length := by
  simp only [Apply.smoothStep] at h
  split_ifs at h <;>
    first
      | (split at h
         · simp only [Option.some.injEq] at h
           rw [← h, List.length_set]
         · exact absurd h (by simp))
      | (simp only [Option.some.injEq] at h
         rw [← h])

/-- The second loop keeps the length of the array `hydrosw`. -/
theorem smoothLoop_length (hydro : List ℚ) (sw : ℤ) (is : List ℕ) (hydrosw out : List ℚ)
    (h : Apply.smoothLoop hydro sw is hydrosw = some out) : out.length = hydrosw.length := by
  induction is generalizing hydrosw with
  | nil =>
    simp only [Apply.smoothLoop, Option.some.injEq] at h
    rw [← h]
  | cons i is ih =>
    simp only [Apply.smoothLoop] at h
    split at h
    · rename_i next hnext
      rw [ih next h, smoothStep_length hydro sw i hydrosw next hnext]
    · exact absurd h (by simp)

/-- An iteration that panics whatever the array, makes the loop panic. -/
theorem smoothLoop_none (hydro : List ℚ) (sw : ℤ) (i : ℕ)
    (hbad : ∀ hydrosw, Apply.smoothStep hydro sw i hydrosw = none)
    (is : List ℕ) (hi : i ∈ is) (hydrosw : List ℚ) :
    Apply.smoothLoop hydro sw is hydrosw = none := by
  induction is generalizing hydrosw with
  | nil => simp at hi
  | cons j js ih =>
    simp only [Apply.smoothLoop]
    split
    · rename_i next hnext
      rcases List.mem_cons.mp hi with h | h
      · subst h
        rw [hbad] at hnext
        exact absurd hnext (by simp)
      · exact ih h next
    · rfl

/-- The window conditions, the slice bounds and hence `Apply` read `sw` only
through `sw / 2`. -/
theorem Apply_congr_half (sc : ScaleAA) (seq : List UInt8) (a b : ℤ)
    (h : Int.tdiv a 2 = Int.tdiv b 2) : Apply sc seq a = Apply sc seq b := by
  have hstep : Apply.smoothStep (Apply.rawLookup sc seq) a
      = Apply.smoothStep (Apply.rawLookup sc seq) b := by
    funext i hydrosw
    simp only [Apply.smoothStep, Apply.fullWindow, Apply.leftEdge, Apply.rightEdge, h]
  have hloop : ∀ (is : List ℕ) (hydrosw : List ℚ),
      Apply.smoothLoop (Apply.rawLookup sc seq) a is hydrosw
        = Apply.smoothLoop (Apply.rawLookup sc seq) b is hydrosw := by
    intro is
    induction is with
    | nil => intro _; rfl
    | cons i is ih =>
      intro hydrosw
      simp only [Apply.smoothLoop, hstep]
      split
      · exact ih _
      · rfl
  simp only [Apply, hloop]

/-- With half-width 0 the window of an index is the element at that index. -/
theorem window_zero (hydro : List ℚ) (i : ℕ) (hi : i < hydro.length) :
    window hydro 0 i = [hydro[i]] := by
  unfold window
  have : min (i + 0 + 1) hydro.length - (i - 0) = 1 := by omega
  rw [this, Nat.sub_zero]
  apply List.ext_getElem?
  intro j
  rcases j with _ | j
  · simp [List.getElem?_take, hi]
  · simp [List.getElem?_take]

/-- The mean of one value is that value. -/
theorem Mean_singleton (x : ℚ) : Mean [x] = x := by
  simp [Mean]

/-- The mean of a non-empty list lies between any bounds of its elements. -/
theorem Mean_bounds (l : List ℚ) (lo hi : ℚ) (hne : l ≠ [])
    (h : ∀ x ∈ l, lo ≤ x ∧ x ≤ hi) : lo ≤ Mean l ∧ Mean l ≤ hi := by
  have hpos : (0 : ℚ) < (l.length : ℚ) := by
    exact_mod_cast List.length_pos.mpr hne
  have h1 : l.length • lo ≤ l.sum := List.card_nsmul_le_sum l lo (fun x hx => (h x hx).1)
  have h2 : l.sum ≤ l.length • hi := List.sum_le_card_nsmul l hi (fun x hx => (h x hx).2)
  rw [nsmul_eq_mul] at h1 h2
  unfold Mean
  constructor
  · rw [le_div_iff₀ hpos]; linarith
  · rw [div_le_iff₀ hpos]; linarith

/-- The clipped window of an index is a non-empty part of the array. -/
theorem window_spec (hydro : List ℚ) (h i : ℕ) (hN : 2 * h ≤ hydro.length)
    (hi : i < hydro.length) :
    window hydro h i ≠ [] ∧ ∀ x ∈ window hydro h i, x ∈ hydro := by
  constructor
  · intro hnil
    have hlen : (window hydro h i).length = min (i + h + 1) hydro.length - (i - h) := by
      unfold window
      rw [length_take_drop _ _ _ (by omega)]
    rw [hnil] at hlen
    simp only [List.length_nil] at hlen
    omega
  · intro x hx
    exact List.mem_of_mem_drop (List.mem_of_mem_take hx)

/-- A value looked up in a table whose values are in `[0, 1]` is in `[0, 1]`. -/
theorem index_unit (sc : ScaleAA) (k : String) (h : ∀ p ∈ sc, 0 ≤ p.2 ∧ p.2 ≤ 1) :
    0 ≤ ScaleAA.index sc k ∧ ScaleAA.index sc k ≤ 1 := by
  unfold ScaleAA.index
  split
  · rename_i v hv
    obtain ⟨l₁, l₂, hl, _⟩ := List.lookup_eq_some_iff.mp hv
    exact h (k, v) (by rw [hl]; simp)
  · norm_num

/-- Whatever the width, one of the three conditions holds at every index. -/
theorem branch_entered (n sw i : ℤ) :
    Apply.fullWindow n sw i = true ∨ Apply.leftEdge sw i = true
      ∨ Apply.rightEdge n sw i = true := by
  simp only [Apply.fullWindow, Apply.leftEdge, Apply.rightEdge, Bool.and_eq_true,
    decide_eq_true_eq]
  omega

/-- The slice bounds of every index are in range and non-empty when the
sequence is at least `2 * (sw / 2)` long. -/
theorem bounds_of_fits (n sw i : ℕ) (hN : 2 * (sw / 2) ≤ n) (hi : i < n) :
    ∃ b e, Apply.bounds n sw i = some (b, e) ∧ 0 ≤ b ∧ b < e ∧ e ≤ (n : ℤ) := by
  simp only [Apply.bounds, Apply.fullWindow, Apply.leftEdge, Apply.rightEdge, tdiv_two_cast,
    Bool.and_eq_true, decide_eq_true_eq]
  generalize sw / 2 = h at hN
  split_ifs with h1 h2 h3
  · exact ⟨_, _, rfl, by omega, by omega, by omega⟩
  · exact ⟨_, _, rfl, by omega, by omega, by omega⟩
  · exact ⟨_, _, rfl, by omega, by omega, by omega⟩
  · omega

/-- When the sequence is shorter than `2 * (sw / 2)`, a left-edge index takes a
slice that ends beyond the array. -/
theorem bounds_of_short (n sw : ℕ) (hn : 1 ≤ n) (hN : n < 2 * (sw / 2)) :
    ∃ i : ℕ, i < n ∧ Apply.leftEdge sw i = true ∧
      Apply.bounds n sw i = some (0, (i : ℤ) + ((sw / 2 : ℕ) : ℤ) + 1) ∧
      n < i + sw / 2 + 1 := by
  have key : ∀ i : ℕ, i < sw / 2 →
      Apply.leftEdge sw i = true ∧
      Apply.bounds n sw i = some (0, (i : ℤ) + ((sw / 2 : ℕ) : ℤ) + 1) := by
    intro i hi
    have hleft : Apply.leftEdge (sw : ℤ) (i : ℤ) = true := by
      simp only [Apply.leftEdge, tdiv_two_cast, decide_eq_true_eq]
      omega
    have hfull : Apply.fullWindow (n : ℤ) (sw : ℤ) (i : ℤ) = false := by
      simp only [Apply.fullWindow, tdiv_two_cast, Bool.and_eq_false_imp, decide_eq_true_eq,
        decide_eq_false_iff_not]
      omega
    refine ⟨hleft, ?_⟩
    simp only [Apply.bounds, hfull, hleft, if_true, tdiv_two_cast]
    simp
  rcases Nat.lt_or_ge (n - 1) (sw / 2) with hc | hc
  · exact ⟨n - 1, by omega, (key (n - 1) hc).1, (key (n - 1) hc).2, by omega⟩
  · exact ⟨sw / 2 - 1, by omega, (key (sw / 2 - 1) (by omega)).1,
      (key (sw / 2 - 1) (by omega)).2, by omega⟩

/-- When the sequence is shorter than `2 * (sw / 2)`, `Apply` panics. -/
theorem Apply_of_short (sc : ScaleAA) (seq : List UInt8) (sw : ℕ) (hn : 1 ≤ seq.length)
    (hN : seq.length < 2 * (sw / 2)) : Apply sc seq (sw : ℤ) = none := by
  obtain ⟨i, hi, _, hb, hbig⟩ := bounds_of_short seq.length sw hn hN
  have hlen := rawLookup_length sc seq
  have hbad : ∀ hydrosw, Apply.smoothStep (Apply.rawLookup sc seq) (sw : ℤ) i hydrosw = none := by
    intro hydrosw
    rw [smoothStep_eq_bounds, hlen, hb]
    have : slice (Apply.rawLookup sc seq) 0 ((i : ℤ) + ((sw / 2 : ℕ) : ℤ) + 1) = none := by
      unfold slice
      rw [if_neg]
      rw [hlen]
      omega
    simp only [this]
  simp only [Apply]
  rw [smoothLoop_none _ _ i hbad _ (by rw [hlen]; exact List.mem_range.mpr hi)]

/-! ## Further lemmas on `rescale` and `readScaleAA` -/

/-- The splitting of a file never yields an empty list of fields. -/
theorem split_ne_nil (cs cur : List Char) : readScaleAA.split cs cur ≠ [] := by
  induction cs generalizing cur with
  | nil => simp [readScaleAA.split]
  | cons c cs ih =>
    simp only [readScaleAA.split]
    split_ifs
    · simp
    · exact ih _

/-- A successful parse yields one value per field. -/
theorem parse_length (parseField : String → Except String ℚ) (fields : List String)
    (values : List ℚ) (h : readScaleAA.parse parseField fields = .ok values) :
    values.length = fields.length := by
  induction fields generalizing values with
  | nil =>
    simp only [readScaleAA.parse, Except.ok.injEq] at h
    subst h
    rfl
  | cons f rest ih =>
    simp only [readScaleAA.parse] at h
    split at h
    · exact absurd h (by simp)
    · split at h
      · exact absurd h (by simp)
      · rename_i vs hvs
        simp only [Except.ok.injEq] at h
        rw [← h, List.length_cons, List.length_cons, ih vs hvs]

/-- The codes of `aa` are pairwise different. -/
theorem aa_nodup : readScaleAA.aa.Nodup := by
  decide

/-- The last loop of `readScaleAA` pairs the codes from index `i` on with the
values, when the table holds the codes before `i`. -/
theorem fill_eq_zip (vs : List ℚ) (i : ℕ) (m : ScaleAA) (hlen : i + vs.length ≤ 20)
    (hkeys : m.map Prod.fst = readScaleAA.aa.take i) :
    readScaleAA.fill vs i m = some (m ++ List.zip (readScaleAA.aa.drop i) vs) := by
  induction vs generalizing i m with
  | nil => simp [readScaleAA.fill]
  | cons v rest ih =>
    simp only [List.length_cons] at hlen
    have hi : i < readScaleAA.aa.length := by
      have : readScaleAA.aa.length = 20 := rfl
      omega
    have hnot : readScaleAA.aa[i] ∉ readScaleAA.aa.take i := by
      intro hmem
      obtain ⟨j, hj, hjeq⟩ := List.mem_take_iff_getElem.mp hmem
      have hji : j = i := (List.Nodup.getElem_inj_iff aa_nodup).mp hjeq
      omega
    have hlook : List.lookup readScaleAA.aa[i] m = none := by
      rw [List.lookup_eq_none_iff]
      intro p hp
      have : p.1 ∈ m.map Prod.fst := List.mem_map_of_mem _ hp
      rw [hkeys] at this
      simp only [bne_iff_ne, ne_eq]
      intro heq
      exact hnot (heq ▸ this)
    have hassign : ScaleAA.assign m readScaleAA.aa[i] v = m ++ [(readScaleAA.aa[i], v)] := by
      simp only [ScaleAA.assign, hlook]
    simp only [readScaleAA.fill, List.getElem?_eq_getElem hi, hassign]
    rw [ih (i + 1) _ (by omega)
      (by rw [List.map_append, hkeys, List.take_succ, List.getElem?_eq_getElem hi]; rfl)]
    rw [List.drop_eq_getElem_cons hi, List.zip_cons_cons, List.append_assoc]
    rfl

/-- The last loop of `readScaleAA` panics on a 21st value. -/
theorem fill_none (vs : List ℚ) (i : ℕ) (m : ScaleAA) (hi : i ≤ 20)
    (hlen : 20 < i + vs.length) : readScaleAA.fill vs i m = none := by
  induction vs generalizing i m with
  | nil => simp only [List.length_nil] at hlen; omega
  | cons v rest ih =>
    simp only [List.length_cons] at hlen
    have haa : readScaleAA.aa.length = 20 := rfl
    rcases Nat.lt_or_ge i 20 with h | h
    · simp only [readScaleAA.fill, List.getElem?_eq_getElem (show i < readScaleAA.aa.length by omega)]
      exact ih (i + 1) _ (by omega) (by omega)
    · simp only [readScaleAA.fill, List.getElem?_eq_none (show readScaleAA.aa.length ≤ i by omega)]

/-- In a pairing of pairwise different keys with values, the `i`-th key is
mapped to the `i`-th value. -/
theorem lookup_zip (ks : List String) (vs : List ℚ) (hnd : ks.Nodup) (i : ℕ)
    (hk : i < ks.length) (hv : i < vs.length) :
    List.lookup ks[i] (List.zip ks vs) = some vs[i] := by
  induction ks generalizing vs i with
  | nil => simp at hk
  | cons k ks ih =>
    cases vs with
    | nil => simp at hv
    | cons v vs =>
      cases i with
      | zero => simp [List.lookup]
      | succ i =>
        simp only [List.length_cons, Nat.add_lt_add_iff_right] at hk hv
        have hne : (ks[i] == k) = false := by
          rw [beq_eq_false_iff_ne]
          intro heq
          exact (List.nodup_cons.mp hnd).1 (heq ▸ List.getElem_mem hk)
        simp only [List.zip_cons_cons, List.getElem_cons_succ, List.lookup, hne]
        exact ih vs (List.nodup_cons.mp hnd).2 i hk hv

/-- What `readScaleAA` does once the file is read and its fields are parsed. -/
theorem readScaleAA_of_parsed (readFile : String → Except String String)
    (parseField : String → Except String ℚ) (name content : String) (norm : Bool)
    (values : List ℚ) (hread : readFile (readScaleAA.catalog name).1 = .ok content)
    (hparse : readScaleAA.parse parseField (readScaleAA.split content.data []) = .ok values) :
    readScaleAA readFile parseField name norm
      = match (if norm then rescale values (readScaleAA.catalog name).2 else some values) with
        | none => .panicked
        | some scale =>
          match readScaleAA.fill scale 0 [] with
          | some aaScale => .ok aaScale
          | none => .panicked := by
  simp only [readScaleAA, hread, hparse]


/-- The result of `rescale` is as long as its input. -/
theorem rescale_length (values out : List ℚ) (inv : Bool)
    (h : rescale values inv = some out) : out.length = values.length := by
  cases values with
  | nil => simp [rescale] at h
  | cons x rest =>
    obtain ⟨mn, mx, _, _, heq⟩ := rescale_eq (x :: rest) inv (by simp)
    rw [heq] at h
    simp only [Option.some.injEq] at h
    rw [← h, List.length_map]

/-- A name outside the catalog leaves the file name empty. -/
theorem catalog_default (name : String) (h : name ∉ catalogNames) :
    readScaleAA.catalog name = ("", false) := by
  simp only [catalogNames, List.mem_cons, List.mem_singleton, not_or, List.not_mem_nil,
    or_false] at h
  simp [readScaleAA.catalog, h]

/-- The table built from at most 20 values pairs the codes with them. -/
theorem fill_zip (vs : List ℚ) (hlen : vs.length ≤ 20) :
    readScaleAA.fill vs 0 [] = some (List.zip readScaleAA.aa vs) := by
  have h := fill_eq_zip vs 0 [] (by omega) (by simp)
  simpa using h

/-- The pairing of the codes with 20 values maps the `i`-th code to the `i`-th
value. -/
theorem lookup_aa_zip (vs : List ℚ) (i : ℕ) (k : String) (hi : i < vs.length)
    (hk : readScaleAA.aa[i]? = some k) :
    List.lookup k (List.zip readScaleAA.aa vs) = vs[i]? := by
  obtain ⟨hi', hget⟩ := List.getElem?_eq_some_iff.mp hk
  rw [← hget, lookup_zip readScaleAA.aa vs aa_nodup i hi' hi, List.getElem?_eq_getElem hi]

/-- On a list of copies of `c` the scan of `rescale` ends with `max = min = c`. -/
theorem scan_const (rest : List ℚ) (c : ℚ) (h : ∀ v ∈ rest, v = c) :
    rescale.scan rest (c, c) = (c, c) := by
  induction rest with
  | nil => rfl
  | cons x rest ih =>
    have hx : x = c := h x (List.mem_cons_self _ _)
    subst hx
    simp only [rescale.scan, gt_iff_lt, lt_self_iff_false, if_false]
    exact ih (fun v hv => h v (List.mem_cons_of_mem _ hv))

/-- On a non-degenerate list the IEEE-754 quotient is the exact one: the two
embeddings of `rescale` agree. -/
theorem rescale_ieee_finite (values : List ℚ) (inv : Bool) (hnd : NonDegenerate values) :
    rescale.ieee values inv = (rescale values inv).map (List.map Float64.finite) := by
  cases values with
  | nil => rfl
  | cons x rest =>
    obtain ⟨hmax, hmin⟩ := scan_extrema x rest
    have hlt := extrema_lt hnd hmin hmax
    have hne : (rescale.scan rest (x, x)).1 - (rescale.scan rest (x, x)).2 ≠ 0 :=
      (sub_pos.mpr hlt).ne'
    cases inv <;>
      simp [rescale.ieee, rescale, Float64.div, Float64.oneMinus, hne]

/-! ## Lemmas on `rescale.float` -/

/-- The overflow threshold is positive. -/
theorem overflow_pos : (0 : ℚ) < Float64.overflow := by
  unfold Float64.overflow
  have : (2 : ℚ) ^ 970 < 2 ^ 1024 := pow_lt_pow_right₀ (by norm_num) (by norm_num)
  linarith

/-- The overflow threshold is above 1. -/
theorem one_lt_overflow : (1 : ℚ) < Float64.overflow := by
  unfold Float64.overflow
  have h1 : (2 : ℚ) ^ 1024 = 2 ^ 970 * 2 ^ 54 := by rw [← pow_add]
  have h2 : (1 : ℚ) ≤ 2 ^ 970 := one_le_pow₀ (by norm_num)
  have h3 : (2 : ℚ) ^ 54 = 18014398509481984 := by norm_num
  rw [h1, h3]
  linarith

/-- A result from the threshold on overflows. -/
theorem ofExact_big (q : ℚ) (h : Float64.overflow ≤ q) : Float64.ofExact q = .posInf := by
  simp [Float64.ofExact, h]

/-- A result strictly within the threshold is stored as it is. -/
theorem ofExact_small (q : ℚ) (h1 : -Float64.overflow < q) (h2 : q < Float64.overflow) :
    Float64.ofExact q = .finite q := by
  simp [Float64.ofExact, not_le.mpr h1, not_le.mpr h2]

/-- The spread of `-2^1023` and `2^1023` overflows. -/
theorem spread_overflows : Float64.overflow ≤ (2 : ℚ) ^ 1023 + 2 ^ 1023 := by
  unfold Float64.overflow
  have h1 : (2 : ℚ) ^ 1024 = 2 ^ 1023 * 2 := by rw [← pow_succ]
  have h2 : (0 : ℚ) < 2 ^ 970 := by positivity
  linarith


/-- Two opposite finite values whose spread overflows: the position of the
maximum becomes NaN. -/
theorem float_overflow_pair (m : ℚ) (inv : Bool) (hm : 0 < m)
    (hbig : Float64.overflow ≤ m + m) :
    rescale.float [.finite (-m), .finite m] inv
      = some [.finite (if inv then 1 else 0), .nan] := by
  have hlt : -m < m := by linarith
  have hnlt : ¬ m < -m := by linarith
  have h0 := ofExact_small 0 (by linarith [overflow_pos]) overflow_pos
  have h1 := ofExact_small 1 (by linarith [overflow_pos]) one_lt_overflow
  have hb := ofExact_big _ hbig
  cases inv <;>
    simp [rescale.float, rescale.floatScan, Float64.lt, Float64.sub, hlt, hnlt, h0, h1, hb,
      Float64.quot]


/-- On finite values the scan of `rescale.float` is the scan of `rescale`. -/
theorem floatScan_finite (rest : List ℚ) (mx mn : ℚ) :
    rescale.floatScan (rest.map Float64.finite) (.finite mx, .finite mn)
      = (.finite (rescale.scan rest (mx, mn)).1, .finite (rescale.scan rest (mx, mn)).2) := by
  induction rest generalizing mx mn with
  | nil => rfl
  | cons x rest ih =>
    simp only [List.map_cons, rescale.floatScan, rescale.scan, Float64.lt, decide_eq_true_eq,
      gt_iff_lt]
    have h1 : (if mx < x then Float64.finite x else Float64.finite mx)
        = Float64.finite (if mx < x then x else mx) := by split_ifs <;> rfl
    have h2 : (if x < mn then Float64.finite x else Float64.finite mn)
        = Float64.finite (if x < mn then x else mn) := by split_ifs <;> rfl
    rw [h1, h2]
    exact ih _ _

/-- On finite, non-degenerate values whose spread does not overflow, `rescale.float`
computes what `rescale` computes: no operation leaves the finite range. -/
theorem rescale_float_exact (values : List ℚ) (inv : Bool) (hnd : NonDegenerate values)
    (hfit : NoOverflow values) :
    rescale.float (values.map Float64.finite) inv
      = (rescale values inv).map (List.map Float64.finite) := by
  cases values with
  | nil => rfl
  | cons x rest =>
    obtain ⟨hmax, hmin⟩ := scan_extrema x rest
    have hlt := extrema_lt hnd hmin hmax
    generalize hmx : (rescale.scan rest (x, x)).1 = mx at hmax hlt
    generalize hmn : (rescale.scan rest (x, x)).2 = mn at hmin hlt
    have hpos := overflow_pos
    have hone := one_lt_overflow
    have hd : mx - mn ≠ 0 := (sub_pos.mpr hlt).ne'
    have hspread : Float64.ofExact (mx - mn) = .finite (mx - mn) :=
      ofExact_small _ (by linarith) (hfit mx hmax.1 mn hmin.1)
    have helem : ∀ v ∈ x :: rest,
        Float64.quot (Float64.sub (.finite v) (.finite mn)) (Float64.sub (.finite mx) (.finite mn))
          = .finite ((v - mn) / (mx - mn)) := by
      intro v hv
      obtain ⟨h0, h1⟩ := unit_quotient hlt (hmin.2 v hv) (hmax.2 v hv)
      have hnum : Float64.ofExact (v - mn) = .finite (v - mn) :=
        ofExact_small _ (by linarith [hmin.2 v hv]) (hfit v hv mn hmin.1)
      simp only [Float64.sub, hnum, hspread, Float64.quot, Float64.div, hd, if_false]
      exact ofExact_small _ (by linarith) (by linarith)
    have hinv : ∀ v ∈ x :: rest,
        Float64.sub (.finite 1) (Float64.quot (Float64.sub (.finite v) (.finite mn))
            (Float64.sub (.finite mx) (.finite mn)))
          = .finite (1 - (v - mn) / (mx - mn)) := by
      intro v hv
      obtain ⟨h0, h1⟩ := unit_quotient hlt (hmin.2 v hv) (hmax.2 v hv)
      rw [helem v hv]
      simp only [Float64.sub]
      exact ofExact_small _ (by linarith) (by linarith)
    have hscan := floatScan_finite rest x x
    rw [hmx, hmn] at hscan
    cases inv
    · have hL : rescale.float ((x :: rest).map Float64.finite) false
          = some (((x :: rest).map Float64.finite).map (fun v =>
              Float64.quot (Float64.sub v (.finite mn))
                (Float64.sub (.finite mx) (.finite mn)))) := by
        simp only [List.map_cons, rescale.float, hscan, Bool.false_eq_true, if_false]
      have hR : rescale (x :: rest) false
          = some ((x :: rest).map (fun v => (v - mn) / (mx - mn))) := by
        simp only [rescale, hmx, hmn, Bool.false_eq_true, if_false]
      rw [hL, hR, Option.map_some', List.map_map, List.map_map]
      exact congrArg some (List.map_congr_left (fun v hv => helem v hv))
    · have hL : rescale.float ((x :: rest).map Float64.finite) true
          = some (((x :: rest).map Float64.finite).map (fun v =>
              Float64.sub (.finite 1) (Float64.quot (Float64.sub v (.finite mn))
                (Float64.sub (.finite mx) (.finite mn))))) := by
        simp only [List.map_cons, rescale.float, hscan, if_true]
      have hR : rescale (x :: rest) true
          = some ((x :: rest).map (fun v => 1 - (v - mn) / (mx - mn))) := by
        simp only [rescale, hmx, hmn, if_true]
      rw [hL, hR, Option.map_some', List.map_map, List.map_map]
      exact congrArg some (List.map_congr_left (fun v hv => hinv v hv))

/-- A list within `[lo, hi]` with `hi - lo` below the threshold has no overflowing
spread. -/
theorem NoOverflow.of_bounds {values : List ℚ} (lo hi : ℚ)
    (h : ∀ v ∈ values, lo ≤ v ∧ v ≤ hi) (hspan : hi - lo < Float64.overflow) :
    NoOverflow values := by
  intro a ha b hb
  have := (h a ha).2
  have := (h b hb).1
  linarith

/-- The values `-2^1023` and `2^1023` are within the finite range. -/
theorem pow_lt_overflow : (2 : ℚ) ^ 1023 < Float64.overflow := by
  unfold Float64.overflow
  have h1 : (2 : ℚ) ^ 1024 = 2 ^ 1023 * 2 := by rw [← pow_succ]
  have h2 : (2 : ℚ) ^ 970 < 2 ^ 1023 := pow_lt_pow_right₀ (by norm_num) (by norm_num)
  linarith

/-- The list of `-2^1023` and `2^1023` is non-degenerate. -/
theorem pair_nonDegenerate : NonDegenerate [-(2 ^ 1023), 2 ^ 1023] := by
  refine ⟨-(2 ^ 1023), by simp, 2 ^ 1023, by simp, ?_⟩
  have : (0 : ℚ) < 2 ^ 1023 := by positivity
  intro h
  linarith

/-- Every value of the result of `rescale` on a non-degenerate list without
overflow is finite and within `[0, 1]`, in both embeddings. -/
theorem rescale_float_unit (values : List ℚ) (inv : Bool) (hnd : NonDegenerate values)
    (hfit : NoOverflow values) :
    ∃ out, rescale values inv = some out ∧
      rescale.float (values.map Float64.finite) inv = some (out.map Float64.finite) ∧
      out.length = values.length ∧ ∀ y ∈ out, 0 ≤ y ∧ y ≤ 1 := by
  obtain ⟨out, h, hl, hr⟩ := rescale_unit_interval inv hnd
  refine ⟨out, h, ?_, hl, hr⟩
  rw [rescale_float_exact values inv hnd hfit, h, Option.map_some']

/-- A value up to 1000 is below the overflow threshold. -/
theorem small_lt_overflow (q : ℚ) (h : q ≤ 1000) : q < Float64.overflow := by
  unfold Float64.overflow
  have h1 : (2 : ℚ) ^ 1024 = 2 ^ 970 * 2 ^ 54 := by rw [← pow_add]
  have h2 : (1 : ℚ) ≤ 2 ^ 970 := one_le_pow₀ (by norm_num)
  have h3 : (2 : ℚ) ^ 54 = 18014398509481984 := by norm_num
  rw [h1, h3]
  linarith

/-- A list within `[0, 10]` has no overflowing spread. -/
theorem NoOverflow.of_small {values : List ℚ} (h : ∀ v ∈ values, 0 ≤ v ∧ v ≤ 10) :
    NoOverflow values :=
  NoOverflow.of_bounds 0 10 h (small_lt_overflow _ (by norm_num))

/-- The constructor `finite` is injective on lists. -/
theorem map_finite_injective : Function.Injective (List.map Float64.finite) :=
  List.map_injective_iff.mpr (fun _ _ h => Float64.finite.inj h)

/-- A list with least element 0 and greatest element 1 is non-degenerate and has
no overflowing spread. -/
theorem unit_list_fits {r : List ℚ} (h0 : IsMinOf r 0) (h1 : IsMaxOf r 1) :
    NonDegenerate r ∧ NoOverflow r :=
  ⟨⟨0, h0.1, 1, h1.1, by norm_num⟩,
    NoOverflow.of_bounds 0 1 (fun v hv => ⟨h0.2 v hv, h1.2 v hv⟩)
      (small_lt_overflow _ (by norm_num))⟩

/-! ## Lemmas on the assignments of the second loop -/

/-- An iteration that does not panic took the slice of its branch and stored
the mean of it at index `i`. -/
theorem smoothStep_some (hydro : List ℚ) (sw : ℤ) (i : ℕ) (hydrosw next : List ℚ)
    (h : Apply.smoothStep hydro sw i hydrosw = some next) :
    ∃ b e w, Apply.bounds hydro.length sw i = some (b, e) ∧ slice hydro b e = some w ∧
      next = hydrosw.set i (Mean w) := by
  rw [smoothStep_eq_bounds] at h
  cases hb : Apply.bounds hydro.length sw i with
  | none =>
    exfalso
    have hbr := branch_entered hydro.length sw i
    simp only [Apply.bounds] at hb
    split_ifs at hb
    simp_all
  | some be =>
    simp only [hb] at h
    cases hs : slice hydro be.1 be.2 with
    | none => simp [hs] at h
    | some w =>
      simp only [hs, Option.some.injEq] at h
      exact ⟨be.1, be.2, w, rfl, hs, h.symm⟩

/-- The second loop leaves the elements at the indices it does not visit. -/
theorem smoothLoop_skip (hydro : List ℚ) (sw : ℤ) (is : List ℕ) (hydrosw out : List ℚ)
    (h : Apply.smoothLoop hydro sw is hydrosw = some out) (j : ℕ) (hj : j ∉ is) :
    out[j]? = hydrosw[j]? := by
  induction is generalizing hydrosw with
  | nil =>
    simp only [Apply.smoothLoop, Option.some.injEq] at h
    rw [← h]
  | cons i is ih =>
    simp only [Apply.smoothLoop] at h
    split at h
    · rename_i next hnext
      obtain ⟨b, e, w, _, _, hset⟩ := smoothStep_some hydro sw i hydrosw next hnext
      rw [ih next h (fun hmem => hj (List.mem_cons_of_mem _ hmem)), hset,
        List.getElem?_set_ne]
      intro hij
      exact hj (hij ▸ List.mem_cons_self _ _)
    · exact absurd h (by simp)

/-- After the second loop every visited index holds the mean of the slice that
its branch takes. -/
theorem smoothLoop_assigned (hydro : List ℚ) (sw : ℤ) (is : List ℕ) (hydrosw out : List ℚ)
    (h : Apply.smoothLoop hydro sw is hydrosw = some out) (hnd : is.Nodup)
    (i : ℕ) (hi : i ∈ is) (hlen : i < hydrosw.length) :
    ∃ b e w, Apply.bounds hydro.length sw i = some (b, e) ∧ slice hydro b e = some w ∧
      out[i]? = some (Mean w) := by
  induction is generalizing hydrosw with
  | nil => simp at hi
  | cons k ks ih =>
    simp only [Apply.smoothLoop] at h
    split at h
    · rename_i next hnext
      obtain ⟨b, e, w, hb, hs, hset⟩ := smoothStep_some hydro sw k hydrosw next hnext
      rcases List.mem_cons.mp hi with hik | hik
      · subst hik
        refine ⟨b, e, w, hb, hs, ?_⟩
        rw [smoothLoop_skip hydro sw ks next out h i (List.nodup_cons.mp hnd).1, hset]
        simp [hlen]
      · exact ih next h (List.nodup_cons.mp hnd).2 hik
          (by rw [hset, List.length_set]; exact hlen)
    · exact absurd h (by simp)

/-! ## The sliding-window mean -/

/-- C1 (full-window case of `Apply`): for every table, every sequence of length
`N`, every window width `sw` with `half = sw / 2` and every index `i` with
`half ≤ i < N - half`, `Apply` returns and `smoothed[i]` is the arithmetic mean
of the `2 * half + 1` values `raw[i - half], ..., raw[i + half]`. -/
theorem Apply_full_window (sc : ScaleAA) (seq : List UInt8) (sw i : ℕ)
    (hlo : sw / 2 ≤ i) (hhi : i < seq.length - sw / 2) :
    ∃ raw smoothed, Apply sc seq (sw : ℤ) = some (raw, smoothed) ∧
      raw.length = seq.length ∧
      smoothed[i]? = some
        ((∑ k in Finset.range (2 * (sw / 2) + 1), raw.getD (i - sw / 2 + k) 0)
          / ((2 * (sw / 2) + 1 : ℕ) : ℚ)) := by
  have hlen := rawLookup_length sc seq
  refine ⟨_, _, Apply_of_fits sc seq sw (by omega), hlen, ?_⟩
  rw [List.getElem?_map, List.getElem?_range (by omega), Option.map_some']
  rw [Mean_window _ (sw / 2) i (i - sw / 2) (2 * (sw / 2) + 1) rfl (by omega) (by omega)]

/-- Witness of C1: length 10, width 5, index 2. -/
theorem Apply_full_window_witness :
    (5 / 2 ≤ 2 ∧ 2 < ([65, 67, 68, 69, 70, 71, 72, 73, 75, 76] : List UInt8).length - 5 / 2) ∧
    ∃ raw smoothed,
      Apply [("A", 1), ("C", 2)] [65, 67, 68, 69, 70, 71, 72, 73, 75, 76] ((5 : ℕ) : ℤ)
        = some (raw, smoothed) ∧
      raw.length = ([65, 67, 68, 69, 70, 71, 72, 73, 75, 76] : List UInt8).length ∧
      smoothed[2]? = some
        ((∑ k in Finset.range (2 * (5 / 2) + 1), raw.getD (2 - 5 / 2 + k) 0)
          / ((2 * (5 / 2) + 1 : ℕ) : ℚ)) :=
  ⟨by decide, Apply_full_window [("A", 1), ("C", 2)] [65, 67, 68, 69, 70, 71, 72, 73, 75, 76] 5 2
    (by decide) (by decide)⟩

/-- Counterexample to C2 as stated: length 3, odd width 5, left-edge index 0,
whose window `raw[0..2]` fits; `Apply` panics (at index 1, on `hydro[0:4]`) and
returns no `smoothed` at all. -/
theorem Apply_left_edge_counterexample :
    (1 ≤ 5 ∧ 5 % 2 = 1 ∧ 0 < 5 / 2 ∧ 0 < ([65, 67, 68] : List UInt8).length ∧
      (0 + 5 / 2 + 1 ≤ ([65, 67, 68] : List UInt8).length)) ∧
    Apply [("A", 1), ("C", 2), ("D", 4)] [65, 67, 68] ((5 : ℕ) : ℤ) = none := by
  decide

/-- C2, amended (left-edge case of `Apply`): for every table, every sequence of
length `N`, every window width `sw` with `half = sw / 2` and `2 * half ≤ N`, and
every index `i < half`, `Apply` returns and `smoothed[i]` is the arithmetic mean
of the `i + half + 1` values `raw[0], ..., raw[i + half]`. -/
theorem Apply_left_edge (sc : ScaleAA) (seq : List UInt8) (sw i : ℕ)
    (hN : 2 * (sw / 2) ≤ seq.length) (hi : i < sw / 2) :
    ∃ raw smoothed, Apply sc seq (sw : ℤ) = some (raw, smoothed) ∧
      raw.length = seq.length ∧ i + sw / 2 < seq.length ∧
      smoothed[i]? = some
        ((∑ k in Finset.range (i + sw / 2 + 1), raw.getD k 0) / ((i + sw / 2 + 1 : ℕ) : ℚ)) := by
  have hlen := rawLookup_length sc seq
  refine ⟨_, _, Apply_of_fits sc seq sw hN, hlen, by omega, ?_⟩
  rw [List.getElem?_map, List.getElem?_range (by omega), Option.map_some']
  rw [Mean_window _ (sw / 2) i 0 (i + sw / 2 + 1) (by omega) (by omega) (by omega)]
  simp

/-- Witness of the amended C2: length 10, width 5, index 0. -/
theorem Apply_left_edge_witness :
    (2 * (5 / 2) ≤ ([65, 67, 68, 69, 70, 71, 72, 73, 75, 76] : List UInt8).length ∧ 0 < 5 / 2) ∧
    ∃ raw smoothed,
      Apply [("A", 1), ("C", 2)] [65, 67, 68, 69, 70, 71, 72, 73, 75, 76] ((5 : ℕ) : ℤ)
        = some (raw, smoothed) ∧
      raw.length = ([65, 67, 68, 69, 70, 71, 72, 73, 75, 76] : List UInt8).length ∧
      0 + 5 / 2 < ([65, 67, 68, 69, 70, 71, 72, 73, 75, 76] : List UInt8).length ∧
      smoothed[0]? = some
        ((∑ k in Finset.range (0 + 5 / 2 + 1), raw.getD k 0) / ((0 + 5 / 2 + 1 : ℕ) : ℚ)) :=
  ⟨by decide, Apply_left_edge [("A", 1), ("C", 2)] [65, 67, 68, 69, 70, 71, 72, 73, 75, 76] 5 0
    (by decide) (by decide)⟩

/-- Counterexample to C3 as stated: length 3, width 5, index 2 is a right-edge
index that is not a left-edge index; `Apply` panics before reaching it and
returns no `smoothed` at all. -/
theorem Apply_right_edge_counterexample :
    (1 ≤ 5 ∧ 2 < ([65, 67, 68] : List UInt8).length ∧
      ([65, 67, 68] : List UInt8).length - 5 / 2 ≤ 2 ∧ 5 / 2 ≤ 2) ∧
    Apply [("A", 1), ("C", 2), ("D", 4)] [65, 67, 68] ((5 : ℕ) : ℤ) = none := by
  decide

/-- C3, amended (right-edge case of `Apply`): for every table, every sequence of
length `N`, every window width `sw` with `half = sw / 2` and `2 * half ≤ N`, and
every index `i < N` with `i ≥ N - half` and `i ≥ half`, `Apply` returns and
`smoothed[i]` is the arithmetic mean of the `N - i + half` values
`raw[i - half], ..., raw[N - 1]`. -/
theorem Apply_right_edge (sc : ScaleAA) (seq : List UInt8) (sw i : ℕ)
    (hN : 2 * (sw / 2) ≤ seq.length) (hi : i < seq.length)
    (hr : seq.length - sw / 2 ≤ i) (hl : sw / 2 ≤ i) :
    ∃ raw smoothed, Apply sc seq (sw : ℤ) = some (raw, smoothed) ∧
      raw.length = seq.length ∧
      smoothed[i]? = some
        ((∑ k in Finset.range (seq.length - i + sw / 2), raw.getD (i - sw / 2 + k) 0)
          / ((seq.length - i + sw / 2 : ℕ) : ℚ)) := by
  have hlen := rawLookup_length sc seq
  refine ⟨_, _, Apply_of_fits sc seq sw hN, hlen, ?_⟩
  rw [List.getElem?_map, List.getElem?_range (by omega), Option.map_some']
  rw [Mean_window _ (sw / 2) i (i - sw / 2) (seq.length - i + sw / 2) rfl (by omega) (by omega)]

/-- Witness of the amended C3: length 10, width 5, index 9. -/
theorem Apply_right_edge_witness :
    (2 * (5 / 2) ≤ ([65, 67, 68, 69, 70, 71, 72, 73, 75, 76] : List UInt8).length ∧
      9 < ([65, 67, 68, 69, 70, 71, 72, 73, 75, 76] : List UInt8).length ∧
      ([65, 67, 68, 69, 70, 71, 72, 73, 75, 76] : List UInt8).length - 5 / 2 ≤ 9 ∧ 5 / 2 ≤ 9) ∧
    ∃ raw smoothed,
      Apply [("A", 1), ("C", 2)] [65, 67, 68, 69, 70, 71, 72, 73, 75, 76] ((5 : ℕ) : ℤ)
        = some (raw, smoothed) ∧
      raw.length = ([65, 67, 68, 69, 70, 71, 72, 73, 75, 76] : List UInt8).length ∧
      smoothed[9]? = some
        ((∑ k in Finset.range
            (([65, 67, 68, 69, 70, 71, 72, 73, 75, 76] : List UInt8).length - 9 + 5 / 2),
              raw.getD (9 - 5 / 2 + k) 0)
          / ((([65, 67, 68, 69, 70, 71, 72, 73, 75, 76] : List UInt8).length - 9 + 5 / 2 : ℕ)
              : ℚ)) :=
  ⟨by decide, Apply_right_edge [("A", 1), ("C", 2)] [65, 67, 68, 69, 70, 71, 72, 73, 75, 76] 5 9
    (by decide) (by decide) (by decide) (by decide)⟩

/-- Counterexample to C4 as stated: for length 1 and odd width 3, index 0
satisfies both the left-edge and the right-edge condition. -/
theorem Apply_conditions_counterexample :
    (1 ≤ (1 : ℤ) ∧ (3 : ℤ) % 2 = 1 ∧ (0 : ℤ) < 1) ∧
    Apply.leftEdge 3 0 = true ∧ Apply.rightEdge 1 3 0 = true := by
  decide

/-- C4, amended (the three window conditions of `Apply`): for every length
`N ≥ 1` and every window width `sw` with `half = sw / 2`, every index `i < N`
satisfies at least one of the three conditions and the full-window condition
excludes the two edge conditions; every index satisfies exactly one of the three
if and only if `2 * half ≤ N`. -/
theorem Apply_conditions (n sw : ℕ) (hn : 1 ≤ n) :
    (∀ i : ℕ, i < n →
      (Apply.fullWindow n sw i = true ∨ Apply.leftEdge sw i = true
        ∨ Apply.rightEdge n sw i = true) ∧
      (Apply.fullWindow n sw i = true →
        Apply.leftEdge sw i = false ∧ Apply.rightEdge n sw i = false)) ∧
    ((∀ i : ℕ, i < n →
        ExactlyOne (Apply.fullWindow n sw i = true) (Apply.leftEdge sw i = true)
          (Apply.rightEdge n sw i = true))
      ↔ 2 * (sw / 2) ≤ n) := by
  unfold ExactlyOne Apply.fullWindow Apply.leftEdge Apply.rightEdge
  simp only [tdiv_two_cast, Bool.and_eq_true, decide_eq_true_eq, decide_eq_false_iff_not]
  generalize sw / 2 = h
  refine ⟨fun i hi => ⟨by omega, by omega⟩, ⟨fun hall => ?_, fun hfit i hi => by omega⟩⟩
  by_contra hlt
  have hpos : 0 < h := by omega
  rcases Nat.lt_or_ge (n - 1) h with hc | hc
  · have := hall (n - 1) (by omega)
    omega
  · have := hall (h - 1) (by omega)
    omega

/-- Witness of the amended C4: length 10, width 5. -/
theorem Apply_conditions_witness :
    1 ≤ 10 ∧
    ((∀ i : ℕ, i < 10 →
      (Apply.fullWindow (10 : ℕ) (5 : ℕ) i = true ∨ Apply.leftEdge (5 : ℕ) i = true
        ∨ Apply.rightEdge (10 : ℕ) (5 : ℕ) i = true) ∧
      (Apply.fullWindow (10 : ℕ) (5 : ℕ) i = true →
        Apply.leftEdge (5 : ℕ) i = false ∧ Apply.rightEdge (10 : ℕ) (5 : ℕ) i = false)) ∧
    ((∀ i : ℕ, i < 10 →
        ExactlyOne (Apply.fullWindow (10 : ℕ) (5 : ℕ) i = true) (Apply.leftEdge (5 : ℕ) i = true)
          (Apply.rightEdge (10 : ℕ) (5 : ℕ) i = true))
      ↔ 2 * (5 / 2) ≤ 10)) :=
  ⟨by decide, Apply_conditions 10 5 (by decide)⟩

/-! ## Rescaling -/

/-- C5 (`rescale` is the min-max transform): for every non-empty list `values`
and every flag `inv`, `rescale` returns a list of the same length whose `i`-th
element is `(values[i] - mn) / (mx - mn)` when `inv` is false and
`1 - (values[i] - mn) / (mx - mn)` when it is true, where `mn` and `mx` are the
least and the greatest element of `values`. -/
theorem rescale_min_max (values : List ℚ) (inv : Bool) (hne : values ≠ []) :
    ∃ mn mx out, IsMinOf values mn ∧ IsMaxOf values mx ∧
      rescale values inv = some out ∧ out.length = values.length ∧
      ∀ (i : ℕ) (hi : i < values.length),
        out[i]? = some (if inv then 1 - (values[i] - mn) / (mx - mn)
          else (values[i] - mn) / (mx - mn)) := by
  obtain ⟨mn, mx, hmn, hmx, h⟩ := rescale_eq values inv hne
  refine ⟨mn, mx, _, hmn, hmx, h, by simp, fun i hi => ?_⟩
  simp [hi]

/-- Witness of C5: the list 3, 1, 2, 5 with inversion. -/
theorem rescale_min_max_witness :
    ([3, 1, 2, 5] : List ℚ) ≠ [] ∧
    ∃ mn mx out, IsMinOf [3, 1, 2, 5] mn ∧ IsMaxOf [3, 1, 2, 5] mx ∧
      rescale [3, 1, 2, 5] true = some out ∧ out.length = ([3, 1, 2, 5] : List ℚ).length ∧
      ∀ (i : ℕ) (hi : i < ([3, 1, 2, 5] : List ℚ).length),
        out[i]? = some (if true = true then 1 - (([3, 1, 2, 5] : List ℚ)[i] - mn) / (mx - mn)
          else (([3, 1, 2, 5] : List ℚ)[i] - mn) / (mx - mn)) :=
  ⟨by simp, rescale_min_max [3, 1, 2, 5] true (by simp)⟩

/-- Counterexample to C6 as stated: the list of the finite values `-2^1023` and
`2^1023` is non-degenerate, yet `max - min` overflows to `+Inf` and the element
at the maximum is `Inf / Inf`, NaN, which is not in `[0, 1]`. -/
theorem rescale_range_counterexample :
    NonDegenerate [-(2 ^ 1023), 2 ^ 1023] ∧
    (2 : ℚ) ^ 1023 < Float64.overflow ∧
    rescale.float [.finite (-(2 ^ 1023)), .finite (2 ^ 1023)] false
      = some [.finite 0, .nan] ∧
    ¬ Float64.InUnit .nan :=
  ⟨pair_nonDegenerate, pow_lt_overflow,
    float_overflow_pair (2 ^ 1023) false (by positivity) spread_overflows,
    fun ⟨_, h, _⟩ => by simp at h⟩

/-- C6, amended (range of `rescale`): for every non-degenerate list of finite
values whose spread `max - min` does not overflow, and both values of `inv`,
every element of the result of `rescale` is finite and in `[0, 1]`; hence, when
the data file of a scale parses to such a list, every entry of a table that
`readScaleAA` returns with `norm = true` is in `[0, 1]`, and a table is returned
when the list has at most 20 values. -/
theorem rescale_range (values : List ℚ) (hnd : NonDegenerate values)
    (hfit : NoOverflow values) :
    (∀ inv : Bool, ∃ out, rescale.float (values.map Float64.finite) inv = some out ∧
      ∀ y ∈ out, Float64.InUnit y) ∧
    (∀ inv : Bool, ∃ out, rescale values inv = some out ∧ ∀ y ∈ out, 0 ≤ y ∧ y ≤ 1) ∧
    (∀ (readFile : String → Except String String) (parseField : String → Except String ℚ)
        (name content : String),
      readFile (readScaleAA.catalog name).1 = .ok content →
      readScaleAA.parse parseField (readScaleAA.split content.data []) = .ok values →
      (∀ table, readScaleAA readFile parseField name true = .ok table →
        ∀ p ∈ table, 0 ≤ p.2 ∧ p.2 ≤ 1) ∧
      (values.length ≤ 20 →
        ∃ table, readScaleAA readFile parseField name true = .ok table)) := by
  refine ⟨fun inv => ?_, fun inv => ?_,
    fun readFile parseField name content hread hparse => ?_⟩
  · obtain ⟨out, _, hf, _, hr⟩ := rescale_float_unit values inv hnd hfit
    refine ⟨_, hf, fun y hy => ?_⟩
    obtain ⟨q, hq, rfl⟩ := List.mem_map.mp hy
    exact ⟨q, rfl, hr q hq⟩
  · obtain ⟨out, h, _, hr⟩ := rescale_unit_interval inv hnd
    exact ⟨out, h, hr⟩
  · obtain ⟨out, h, hl, hr⟩ := rescale_unit_interval (readScaleAA.catalog name).2 hnd
    cases hfill : readScaleAA.fill out 0 [] with
    | none =>
      have hrun : readScaleAA readFile parseField name true = .panicked := by
        simp [readScaleAA, hread, hparse, h, hfill]
      refine ⟨fun table htable => ?_, fun hlen => ?_⟩
      · rw [hrun] at htable
        exact absurd htable (by simp)
      · obtain ⟨t, ht⟩ := fill_some out 0 [] (by omega)
        rw [ht] at hfill
        exact absurd hfill (by simp)
    | some t =>
      have hrun : readScaleAA readFile parseField name true = .ok t := by
        simp [readScaleAA, hread, hparse, h, hfill]
      refine ⟨fun table htable p hp => ?_, fun _ => ⟨t, hrun⟩⟩
      rw [hrun] at htable
      simp only [Outcome.ok.injEq] at htable
      subst htable
      rcases fill_mem out 0 [] t hfill p hp with h' | h'
      · simp at h'
      · exact hr _ h'

/-- Witness of the amended C6: a data file of the scale Hopp holding the two
fields 1 and 3. -/
theorem rescale_range_witness :
    (NonDegenerate [1, 3] ∧ NoOverflow [1, 3]) ∧
    (∃ out, rescale.float [.finite 1, .finite 3] true = some out ∧
      ∀ y ∈ out, Float64.InUnit y) ∧
    ∃ table,
      readScaleAA (fun _ => .ok "1\t3")
        (fun f => if f = "1" then .ok 1 else if f = "3" then .ok 3 else .error f)
        "Hopp" true = .ok table :=
  ⟨⟨⟨1, by simp, 3, by simp, by norm_num⟩, NoOverflow.of_small (by norm_num)⟩,
    (rescale_range [1, 3] ⟨1, by simp, 3, by simp, by norm_num⟩
      (NoOverflow.of_small (by norm_num))).1 true,
    ((rescale_range [1, 3] ⟨1, by simp, 3, by simp, by norm_num⟩
      (NoOverflow.of_small (by norm_num))).2.2 (fun _ => .ok "1\t3")
      (fun f => if f = "1" then .ok 1 else if f = "3" then .ok 3 else .error f)
      "Hopp" "1\t3" rfl rfl).2 (by decide)⟩

/-- Counterexample to C7 as stated: in the non-degenerate list of `-2^1023` and
`2^1023` the second position holds the maximum, and `rescale` maps it to NaN,
neither to 1 without inversion nor to 0 with it, because `max - min` overflows. -/
theorem rescale_endpoints_counterexample :
    NonDegenerate [-(2 ^ 1023), 2 ^ 1023] ∧
    (∀ v ∈ ([-(2 ^ 1023), 2 ^ 1023] : List ℚ), v ≤ 2 ^ 1023) ∧
    rescale.float [.finite (-(2 ^ 1023)), .finite (2 ^ 1023)] false
      = some [.finite 0, .nan] ∧
    rescale.float [.finite (-(2 ^ 1023)), .finite (2 ^ 1023)] true
      = some [.finite 1, .nan] := by
  refine ⟨pair_nonDegenerate, fun v hv => ?_,
    float_overflow_pair (2 ^ 1023) false (by positivity) spread_overflows,
    float_overflow_pair (2 ^ 1023) true (by positivity) spread_overflows⟩
  have hpos : (0 : ℚ) < 2 ^ 1023 := by positivity
  simp only [List.mem_cons, List.mem_singleton, List.not_mem_nil, or_false] at hv
  rcases hv with h | h
  · rw [h]; linarith
  · rw [h]

/-- C7, amended (endpoints of `rescale`): for every non-degenerate list of
finite values whose spread `max - min` does not overflow, all results are finite
and `rescale` sends every position holding the least element to 0 and every
position holding the greatest element to 1 when `inv` is false, and to 1 and 0
when `inv` is true. -/
theorem rescale_endpoints (values : List ℚ) (inv : Bool) (hnd : NonDegenerate values)
    (hfit : NoOverflow values) :
    ∃ out, rescale.float (values.map Float64.finite) inv = some (out.map Float64.finite) ∧
      rescale values inv = some out ∧
      ∀ (i : ℕ) (hi : i < values.length),
        ((∀ v ∈ values, values[i] ≤ v) → out[i]? = some (if inv then 1 else 0)) ∧
        ((∀ v ∈ values, v ≤ values[i]) → out[i]? = some (if inv then 0 else 1)) := by
  obtain ⟨mn, mx, hmn, hmx⟩ := exists_extrema hnd.ne_nil
  have hlt := extrema_lt hnd hmn hmx
  have hne : mx - mn ≠ 0 := (sub_pos.mpr hlt).ne'
  have hres := rescale_of_extrema inv hmn hmx
  refine ⟨_, ?_, hres, fun i hi => ⟨fun hmin => ?_, fun hmax => ?_⟩⟩
  · rw [rescale_float_exact values inv hnd hfit, hres, Option.map_some']
  · have hi_mn : values[i] = mn :=
      IsMinOf_unique ⟨List.getElem_mem hi, hmin⟩ hmn
    cases inv <;> simp [hi, hi_mn]
  · have hi_mx : values[i] = mx :=
      IsMaxOf_unique ⟨List.getElem_mem hi, hmax⟩ hmx
    cases inv <;> simp [hi, hi_mx, div_self hne]

/-- Witness of the amended C7: the list 3, 1, 2, 5 with inversion. -/
theorem rescale_endpoints_witness :
    (NonDegenerate [3, 1, 2, 5] ∧ NoOverflow [3, 1, 2, 5]) ∧
    ∃ out, rescale.float ([3, 1, 2, 5].map Float64.finite) true
        = some (out.map Float64.finite) ∧
      rescale [3, 1, 2, 5] true = some out ∧
      ∀ (i : ℕ) (hi : i < ([3, 1, 2, 5] : List ℚ).length),
        ((∀ v ∈ ([3, 1, 2, 5] : List ℚ), ([3, 1, 2, 5] : List ℚ)[i] ≤ v) →
          out[i]? = some (if true = true then 1 else 0)) ∧
        ((∀ v ∈ ([3, 1, 2, 5] : List ℚ), v ≤ ([3, 1, 2, 5] : List ℚ)[i]) →
          out[i]? = some (if true = true then 0 else 1)) :=
  ⟨⟨⟨3, by simp, 1, by simp, by norm_num⟩, NoOverflow.of_small (by norm_num)⟩,
    rescale_endpoints [3, 1, 2, 5] true ⟨3, by simp, 1, by simp, by norm_num⟩
      (NoOverflow.of_small (by norm_num))⟩

/-- Counterexample to C8 as stated: on the non-degenerate list 0, 2 without
inversion a second application of `rescale` leaves the result unchanged, yet the
list is not within `[0, 1]`. -/
theorem rescale_twice_counterexample :
    NonDegenerate [0, 2] ∧
    rescale [0, 2] false = some [0, 1] ∧
    rescale [0, 1] false = some [0, 1] ∧
    ¬ (∀ v ∈ ([0, 2] : List ℚ), 0 ≤ v ∧ v ≤ 1) := by
  refine ⟨⟨0, by simp, 2, by simp, by norm_num⟩, ?_, ?_, ?_⟩
  · norm_num [rescale, rescale.scan]
  · norm_num [rescale, rescale.scan]
  · intro h
    have := (h 2 (by simp)).2
    norm_num at this

/-- C8, amended (a second application of `rescale`): for every non-degenerate
list of finite values whose spread `max - min` does not overflow, without
inversion the second application leaves the result of the first unchanged,
whatever the range of the input; with inversion the second application changes
the result. -/
theorem rescale_twice (values : List ℚ) (hnd : NonDegenerate values)
    (hfit : NoOverflow values) :
    (∃ r, rescale.float (values.map Float64.finite) false = some r ∧
      rescale.float r false = some r) ∧
    (∃ r r', rescale.float (values.map Float64.finite) true = some r ∧
      rescale.float r true = some r' ∧ r' ≠ r) := by
  obtain ⟨mn, mx, hmn, hmx⟩ := exists_extrema hnd.ne_nil
  have hlt := extrema_lt hnd hmn hmx
  have hF := rescale_of_extrema false hmn hmx
  have hT := rescale_of_extrema true hmn hmx
  simp only [Bool.false_eq_true, if_false] at hF
  simp only [if_true] at hT
  constructor
  · obtain ⟨h0, h1⟩ := normalized_extrema hlt hmn hmx
    obtain ⟨hnd', hfit'⟩ := unit_list_fits h0 h1
    refine ⟨_, by rw [rescale_float_exact values false hnd hfit, hF, Option.map_some'], ?_⟩
    rw [rescale_float_exact _ false hnd' hfit', rescale_of_extrema false h0 h1]
    simp
  · obtain ⟨h0, h1⟩ := inverted_extrema hlt hmn hmx
    obtain ⟨hnd', hfit'⟩ := unit_list_fits h0 h1
    refine ⟨_, _, by rw [rescale_float_exact values true hnd hfit, hT, Option.map_some'],
      by rw [rescale_float_exact _ true hnd' hfit', rescale_of_extrema true h0 h1,
        Option.map_some'], ?_⟩
    intro heq
    have heq' := map_finite_injective heq
    have hid : List.map (fun v => if true = true then 1 - (v - 0) / (1 - 0) else (v - 0) / (1 - 0))
          (List.map (fun v => 1 - (v - mn) / (mx - mn)) values)
        = List.map id (List.map (fun v => 1 - (v - mn) / (mx - mn)) values) := by
      rw [List.map_id]; exact heq'
    have := (List.map_inj_left.mp hid) 1 h1.1
    norm_num at this

/-- Witness of the amended C8: the list 0, 2. -/
theorem rescale_twice_witness :
    (NonDegenerate [0, 2] ∧ NoOverflow [0, 2]) ∧
    ((∃ r, rescale.float ([0, 2].map Float64.finite) false = some r ∧
      rescale.float r false = some r) ∧
    (∃ r r', rescale.float ([0, 2].map Float64.finite) true = some r ∧
      rescale.float r true = some r' ∧ r' ≠ r)) :=
  ⟨⟨⟨0, by simp, 2, by simp, by norm_num⟩, NoOverflow.of_small (by norm_num)⟩,
    rescale_twice [0, 2] ⟨0, by simp, 2, by simp, by norm_num⟩
      (NoOverflow.of_small (by norm_num))⟩

/-! ## Raw lookup and uniform sequences -/

/-- C9 (raw lookup of `Apply`): for every table and every sequence, the array
`hydro` filled by the first loop holds at every index `i` the table's value for
the one-character string made from `seq[i]` when that string is a key, and 0
when it is not; the window width plays no part in it: every call of `Apply` that
returns, returns this array as `raw`, and `Apply` returns whenever the sequence
is at least `2 * (sw / 2)` long. -/
theorem Apply_raw_lookup (sc : ScaleAA) (seq : List UInt8) :
    (∀ (i : ℕ) (hi : i < seq.length),
      (∀ v, List.lookup (byteString seq[i]) sc = some v →
        (Apply.rawLookup sc seq)[i]? = some v) ∧
      (List.lookup (byteString seq[i]) sc = none →
        (Apply.rawLookup sc seq)[i]? = some 0)) ∧
    (∀ (sw : ℤ) (raw smoothed : List ℚ),
      Apply sc seq sw = some (raw, smoothed) → raw = Apply.rawLookup sc seq) ∧
    (∀ sw : ℕ, 2 * (sw / 2) ≤ seq.length →
      ∃ smoothed, Apply sc seq (sw : ℤ) = some (Apply.rawLookup sc seq, smoothed)) := by
  refine ⟨fun i hi => ⟨fun v hv => ?_, fun hv => ?_⟩, fun sw raw smoothed h => ?_,
    fun sw hN => ⟨_, Apply_of_fits sc seq sw hN⟩⟩
  · simp [Apply.rawLookup, hi, ScaleAA.index, hv]
  · simp [Apply.rawLookup, hi, ScaleAA.index, hv]
  · simp only [Apply] at h
    split at h
    · simp only [Option.some.injEq, Prod.mk.injEq] at h
      exact h.1.symm
    · exact absurd h (by simp)

/-- Witness of C9: the residue X, absent from the table, is looked up as 0. -/
theorem Apply_raw_lookup_witness :
    (Apply.rawLookup [("A", 1), ("C", 2)] [65, 88, 67])[1]? = some 0 :=
  ((Apply_raw_lookup [("A", 1), ("C", 2)] [65, 88, 67]).1 1 (by decide)).2 (by decide)

/-- Counterexample to C10 as stated: the sequence made of one residue A with the
odd width 3; `Apply` panics (on `hydro[0:2]`) and returns nothing. -/
theorem Apply_uniform_counterexample :
    (List.lookup "A" ([("A", 1)] : ScaleAA) = some 1 ∧ 1 ≤ (List.replicate 1 (65 : UInt8)).length
      ∧ 1 ≤ 3 ∧ 3 % 2 = 1) ∧
    Apply [("A", 1)] (List.replicate 1 65) ((3 : ℕ) : ℤ) = none := by
  decide

/-- C10, amended (a uniform sequence is a fixed point of smoothing): for every
table mapping the key A to `v`, every sequence of `N` residues A and every window
width `sw` with `2 * (sw / 2) ≤ N`, `Apply` returns `raw[i] = v` and
`smoothed[i] = v` at every index. -/
theorem Apply_uniform (sc : ScaleAA) (v : ℚ) (n sw : ℕ)
    (hA : List.lookup "A" sc = some v) (hN : 2 * (sw / 2) ≤ n) :
    Apply sc (List.replicate n 65) (sw : ℤ)
      = some (List.replicate n v, List.replicate n v) := by
  have hk : byteString 65 = "A" := by decide
  have hraw : Apply.rawLookup sc (List.replicate n 65) = List.replicate n v := by
    simp [Apply.rawLookup, ScaleAA.index, hk, hA]
  rw [Apply_of_fits sc _ sw (by simpa using hN), hraw]
  simp only [List.length_replicate, Option.some.injEq, Prod.mk.injEq, true_and]
  apply List.ext_getElem?
  intro j
  by_cases hj : j < n
  · rw [List.getElem?_map, List.getElem?_range hj, Option.map_some']
    unfold window
    rw [List.drop_replicate, List.take_replicate, Mean_replicate _ _ (by simp; omega)]
    simp [hj]
  · rw [List.getElem?_eq_none (by simp; omega), List.getElem?_eq_none (by simp; omega)]

/-- Witness of the amended C10: four residues A, width 5. -/
theorem Apply_uniform_witness :
    (List.lookup "A" ([("A", 1 / 2), ("C", 1)] : ScaleAA) = some (1 / 2) ∧ 2 * (5 / 2) ≤ 4) ∧
    Apply [("A", 1 / 2), ("C", 1)] (List.replicate 4 65) ((5 : ℕ) : ℤ)
      = some (List.replicate 4 (1 / 2), List.replicate 4 (1 / 2)) :=
  ⟨⟨by rfl, by decide⟩, Apply_uniform [("A", 1 / 2), ("C", 1)] (1 / 2) 4 5 (by rfl) (by decide)⟩

/-! ## Window width and outputs of `Apply` -/

/-- C11 (width 1 is the identity smoothing): for every table and every
sequence, `Apply` with `sw = 1` returns, every index takes the full-window
branch with the one-element slice `hydro[i:i+1]`, and `smoothed` equals `raw`
element for element. -/
theorem Apply_width_one (sc : ScaleAA) (seq : List UInt8) :
    Apply sc seq 1 = some (Apply.rawLookup sc seq, Apply.rawLookup sc seq) ∧
    ∀ i : ℕ, i < seq.length →
      Apply.fullWindow seq.length 1 i = true ∧
      Apply.bounds seq.length 1 i = some ((i : ℤ), (i : ℤ) + 1) := by
  constructor
  · have h := Apply_of_fits sc seq 1 (by simp)
    rw [Nat.cast_one] at h
    rw [h]
    simp only [Option.some.injEq, Prod.mk.injEq, true_and]
    have hlen := rawLookup_length sc seq
    apply List.ext_getElem?
    intro j
    by_cases hj : j < seq.length
    · rw [List.getElem?_map, List.getElem?_range hj, Option.map_some']
      have hj' : j < (Apply.rawLookup sc seq).length := by omega
      rw [show (1 : ℕ) / 2 = 0 from rfl, window_zero _ j hj', Mean_singleton,
        List.getElem?_eq_getElem hj']
    · rw [List.getElem?_eq_none (by simp; omega), List.getElem?_eq_none (by omega)]
  · intro i hi
    have hfull : Apply.fullWindow (seq.length : ℤ) 1 (i : ℤ) = true := by
      simp only [Apply.fullWindow, show Int.tdiv 1 2 = 0 from rfl, Bool.and_eq_true,
        decide_eq_true_eq]
      omega
    refine ⟨hfull, ?_⟩
    simp only [Apply.bounds, hfull, if_true, show Int.tdiv 1 2 = 0 from rfl]
    simp

/-- Witness of C11: the sequence ACDEFGHIKLMNPQRSTVWY with a sample table. -/
theorem Apply_width_one_witness :
    Apply [("A", 1 / 4), ("C", 1), ("D", 0)]
        [65, 67, 68, 69, 70, 71, 72, 73, 75, 76, 77, 78, 80, 81, 82, 83, 84, 86, 87, 89] 1
      = some
        (Apply.rawLookup [("A", 1 / 4), ("C", 1), ("D", 0)]
          [65, 67, 68, 69, 70, 71, 72, 73, 75, 76, 77, 78, 80, 81, 82, 83, 84, 86, 87, 89],
         Apply.rawLookup [("A", 1 / 4), ("C", 1), ("D", 0)]
          [65, 67, 68, 69, 70, 71, 72, 73, 75, 76, 77, 78, 80, 81, 82, 83, 84, 86, 87, 89]) :=
  (Apply_width_one [("A", 1 / 4), ("C", 1), ("D", 0)]
    [65, 67, 68, 69, 70, 71, 72, 73, 75, 76, 77, 78, 80, 81, 82, 83, 84, 86, 87, 89]).1

/-- C12 (even widths are truncated silently): for every table, every sequence
and every even `sw ≥ 2`, `sw / 2 = (sw + 1) / 2` and `Apply` with `sw` gives the
very outcome of `Apply` with `sw + 1`, the same arrays or the same panic; an
even width is not refused: `Apply` returns whenever the sequence is at least
`2 * (sw / 2)` long. -/
theorem Apply_even_width (sc : ScaleAA) (seq : List UInt8) (sw : ℤ)
    (h2 : 2 ≤ sw) (heven : sw % 2 = 0) :
    Int.tdiv sw 2 = Int.tdiv (sw + 1) 2 ∧
    Apply sc seq sw = Apply sc seq (sw + 1) ∧
    (2 * Int.tdiv sw 2 ≤ (seq.length : ℤ) →
      ∃ raw smoothed, Apply sc seq sw = some (raw, smoothed)) := by
  have hhalf : Int.tdiv sw 2 = Int.tdiv (sw + 1) 2 := by
    rw [Int.tdiv_eq_ediv (by omega) (by omega), Int.tdiv_eq_ediv (by omega) (by omega)]
    omega
  refine ⟨hhalf, Apply_congr_half sc seq sw (sw + 1) hhalf, fun hfit => ?_⟩
  have hcast : sw = ((sw.toNat : ℕ) : ℤ) := (Int.toNat_of_nonneg (by omega)).symm
  have hfit' : 2 * (sw.toNat / 2) ≤ seq.length := by
    rw [Int.tdiv_eq_ediv (by omega) (by omega)] at hfit
    omega
  rw [hcast]
  exact ⟨_, _, Apply_of_fits sc seq sw.toNat hfit'⟩

/-- Witness of C12: the widths 4 and 5 on a sequence of length 6. -/
theorem Apply_even_width_witness :
    ((2 : ℤ) ≤ 4 ∧ (4 : ℤ) % 2 = 0) ∧
    (Int.tdiv 4 2 = Int.tdiv (4 + 1) 2 ∧
    Apply [("A", 1), ("C", 2)] [65, 67, 68, 65, 67, 68] 4
      = Apply [("A", 1), ("C", 2)] [65, 67, 68, 65, 67, 68] (4 + 1) ∧
    (2 * Int.tdiv 4 2 ≤ ((([65, 67, 68, 65, 67, 68] : List UInt8).length : ℕ) : ℤ) →
      ∃ raw smoothed, Apply [("A", 1), ("C", 2)] [65, 67, 68, 65, 67, 68] 4
        = some (raw, smoothed))) :=
  ⟨by decide, Apply_even_width [("A", 1), ("C", 2)] [65, 67, 68, 65, 67, 68] 4
    (by decide) (by decide)⟩

/-- C13 (output lengths of `Apply`): for every table, sequence and width, when
`Apply` returns `raw` and `smoothed` they both have the length of the sequence;
at every index exactly one branch of the `if / else if / else if` is entered;
`Apply` does return when `sw ≥ 0` and the sequence is at least `2 * (sw / 2)`
long; and when it returns, every position `i` of `smoothed` holds what that
branch assigned: the mean of the slice `raw[b:e]` with the bounds of the branch
entered at `i`. -/
theorem Apply_lengths (sc : ScaleAA) (seq : List UInt8) (sw : ℤ) :
    (∀ raw smoothed, Apply sc seq sw = some (raw, smoothed) →
      raw.length = seq.length ∧ smoothed.length = seq.length) ∧
    (∀ i : ℕ, i < seq.length →
      ExactlyOne (Apply.fullWindow seq.length sw i = true)
        (Apply.fullWindow seq.length sw i = false ∧ Apply.leftEdge sw i = true)
        (Apply.fullWindow seq.length sw i = false ∧ Apply.leftEdge sw i = false
          ∧ Apply.rightEdge seq.length sw i = true)) ∧
    (0 ≤ sw → 2 * Int.tdiv sw 2 ≤ (seq.length : ℤ) →
      ∃ raw smoothed, Apply sc seq sw = some (raw, smoothed)) ∧
    (∀ raw smoothed, Apply sc seq sw = some (raw, smoothed) →
      ∀ i : ℕ, i < seq.length →
        ∃ b e w, Apply.bounds seq.length sw i = some (b, e) ∧ slice raw b e = some w ∧
          smoothed[i]? = some (Mean w)) := by
  refine ⟨fun raw smoothed h => ?_, fun i _ => ?_, fun h0 hfit => ?_,
    fun raw smoothed h i hi => ?_⟩
  · simp only [Apply] at h
    split at h
    · rename_i out hout
      simp only [Option.some.injEq, Prod.mk.injEq] at h
      have hl := smoothLoop_length _ _ _ _ _ hout
      rw [← h.1, ← h.2, hl]
      exact ⟨rawLookup_length sc seq, by simp⟩
    · exact absurd h (by simp)
  · unfold ExactlyOne
    have := branch_entered seq.length sw i
    cases h1 : Apply.fullWindow seq.length sw i <;>
      cases h2 : Apply.leftEdge sw i <;>
        cases h3 : Apply.rightEdge seq.length sw i <;> simp_all
  · have hcast : sw = ((sw.toNat : ℕ) : ℤ) := (Int.toNat_of_nonneg h0).symm
    have hfit' : 2 * (sw.toNat / 2) ≤ seq.length := by
      rw [Int.tdiv_eq_ediv h0 (by omega)] at hfit
      omega
    rw [hcast]
    exact ⟨_, _, Apply_of_fits sc seq sw.toNat hfit'⟩
  · have hlen := rawLookup_length sc seq
    simp only [Apply] at h
    split at h
    · rename_i out hout
      simp only [Option.some.injEq, Prod.mk.injEq] at h
      obtain ⟨b, e, w, hb, hs, hout'⟩ := smoothLoop_assigned _ sw _ _ out hout
        (List.nodup_range _) i (by rw [hlen]; exact List.mem_range.mpr hi) (by simpa using hi)
      rw [hlen] at hb
      rw [← h.1, ← h.2]
      exact ⟨b, e, w, hb, hs, hout'⟩
    · exact absurd h (by simp)

/-- Witness of C13: a sequence of length 6 with width 5, position 2. -/
theorem Apply_lengths_witness :
    ∃ raw smoothed,
      Apply [("A", 1), ("C", 2)] [65, 67, 68, 65, 67, 68] 5 = some (raw, smoothed) ∧
      raw.length = 6 ∧ smoothed.length = 6 ∧
      ∃ b e w, Apply.bounds (([65, 67, 68, 65, 67, 68] : List UInt8).length : ℕ) 5 (2 : ℕ)
          = some (b, e) ∧
        slice raw b e = some w ∧ smoothed[2]? = some (Mean w) := by
  obtain ⟨raw, smoothed, h⟩ :=
    (Apply_lengths [("A", 1), ("C", 2)] [65, 67, 68, 65, 67, 68] 5).2.2.1 (by decide) (by decide)
  exact ⟨raw, smoothed, h,
    ((Apply_lengths [("A", 1), ("C", 2)] [65, 67, 68, 65, 67, 68] 5).1 raw smoothed h).1,
    ((Apply_lengths [("A", 1), ("C", 2)] [65, 67, 68, 65, 67, 68] 5).1 raw smoothed h).2,
    (Apply_lengths [("A", 1), ("C", 2)] [65, 67, 68, 65, 67, 68] 5).2.2.2 raw smoothed h 2
      (by decide)⟩

/-! ## The catalog and the tables of `readScaleAA` -/

/-- C14 (invert flags of the catalog): the `switch` of `readScaleAA` accepts
exactly the 19 names of `catalogNames`; the flag `inv` is true exactly for
Engelman, Fasman, Hopp, Levitt and Prabhakaran and false for the 14 other
accepted names; and this flag is the one handed to `rescale`. -/
theorem catalog_invert (name : String) :
    ((readScaleAA.catalog name).1 ≠ "" ↔ name ∈ catalogNames) ∧
    ((readScaleAA.catalog name).2 = true
      ↔ name ∈ ["Engelman", "Fasman", "Hopp", "Levitt", "Prabhakaran"]) ∧
    (name ∈ ["Argos", "Black", "Casari", "Cid", "Eisenberg", "Fauchere", "Goldsack", "Jones",
        "Kyte", "Ponnuswamy", "Radzicka", "Rose", "Wolfenden", "Zimmerman"] →
      name ∈ catalogNames ∧ (readScaleAA.catalog name).2 = false) ∧
    (∀ (readFile : String → Except String String) (parseField : String → Except String ℚ)
        (content : String) (values : List ℚ),
      readFile (readScaleAA.catalog name).1 = .ok content →
      readScaleAA.parse parseField (readScaleAA.split content.data []) = .ok values →
      readScaleAA readFile parseField name true
        = match rescale values
            (decide (name ∈ ["Engelman", "Fasman", "Hopp", "Levitt", "Prabhakaran"])) with
          | none => .panicked
          | some scale =>
            match readScaleAA.fill scale 0 [] with
            | some aaScale => .ok aaScale
            | none => .panicked) := by
  have hcases : name ∈ catalogNames ∨ name ∉ catalogNames := Classical.em _
  have hfile : (readScaleAA.catalog name).1 ≠ "" ↔ name ∈ catalogNames := by
    rcases hcases with h | h
    · simp only [h, iff_true]
      simp only [catalogNames, List.mem_cons, List.mem_singleton, List.not_mem_nil,
        or_false] at h
      rcases h with h | h | h | h | h | h | h | h | h | h | h | h | h | h | h | h | h | h | h <;>
        subst h <;> decide
    · simp [catalog_default name h, h]
  have hflag : (readScaleAA.catalog name).2 = true
      ↔ name ∈ ["Engelman", "Fasman", "Hopp", "Levitt", "Prabhakaran"] := by
    rcases hcases with h | h
    · simp only [catalogNames, List.mem_cons, List.mem_singleton, List.not_mem_nil,
        or_false] at h
      rcases h with h | h | h | h | h | h | h | h | h | h | h | h | h | h | h | h | h | h | h <;>
        subst h <;> decide
    · rw [catalog_default name h]
      simp only [catalogNames, List.mem_cons, List.mem_singleton, not_or, List.not_mem_nil,
        or_false] at h
      simp [h]
  refine ⟨hfile, hflag, ?_, ?_⟩
  · intro h
    simp only [List.mem_cons, List.mem_singleton, List.not_mem_nil, or_false] at h
    rcases h with h | h | h | h | h | h | h | h | h | h | h | h | h | h <;> subst h <;> decide
  · intro readFile parseField content values hread hparse
    rw [readScaleAA_of_parsed readFile parseField name content true values hread hparse]
    have : (readScaleAA.catalog name).2
        = decide (name ∈ ["Engelman", "Fasman", "Hopp", "Levitt", "Prabhakaran"]) := by
      rw [Bool.eq_iff_iff, hflag, decide_eq_true_iff]
    simp only [if_true, this]

/-- Witness of C14: Hopp is inverted, Kyte is not. -/
theorem catalog_invert_witness :
    (readScaleAA.catalog "Hopp").2 = true ∧ (readScaleAA.catalog "Kyte").2 = false :=
  ⟨(catalog_invert "Hopp").2.1.mpr (by decide),
    ((catalog_invert "Kyte").2.2.1 (by decide)).2⟩

/-- C15 (table construction in `readScaleAA`): when the data file of a name
parses to 20 values `s`, the table returned with `norm = false` maps the `i`-th
code of `aa` to `s[i]`, the table returned with `norm = true` maps it to the
`i`-th element of `rescale s inv`, and both tables have exactly 20 entries. -/
theorem readScaleAA_table (readFile : String → Except String String)
    (parseField : String → Except String ℚ) (name content : String) (values : List ℚ)
    (hread : readFile (readScaleAA.catalog name).1 = .ok content)
    (hparse : readScaleAA.parse parseField (readScaleAA.split content.data []) = .ok values)
    (h20 : values.length = 20) :
    (∃ table, readScaleAA readFile parseField name false = .ok table ∧ table.length = 20 ∧
      ∀ (i : ℕ) (k : String), i < 20 → readScaleAA.aa[i]? = some k →
        List.lookup k table = values[i]?) ∧
    (∃ scaled table, rescale values (readScaleAA.catalog name).2 = some scaled ∧
      readScaleAA readFile parseField name true = .ok table ∧ table.length = 20 ∧
      ∀ (i : ℕ) (k : String), i < 20 → readScaleAA.aa[i]? = some k →
        List.lookup k table = scaled[i]?) := by
  have haa : readScaleAA.aa.length = 20 := rfl
  constructor
  · refine ⟨List.zip readScaleAA.aa values, ?_, by simp [haa, h20], fun i k hi hk => ?_⟩
    · rw [readScaleAA_of_parsed readFile parseField name content false values hread hparse]
      simp [fill_zip values (by omega)]
    · exact lookup_aa_zip values i k (by omega) hk
  · obtain ⟨scaled, hres⟩ : ∃ scaled,
        rescale values (readScaleAA.catalog name).2 = some scaled := by
      obtain ⟨mn, mx, _, _, hres⟩ := rescale_eq values (readScaleAA.catalog name).2
        (by intro h; rw [h] at h20; simp at h20)
      exact ⟨_, hres⟩
    have hlen := rescale_length _ _ _ hres
    refine ⟨scaled, List.zip readScaleAA.aa scaled, hres, ?_, by simp [haa, hlen, h20],
      fun i k hi hk => ?_⟩
    · rw [readScaleAA_of_parsed readFile parseField name content true values hread hparse]
      simp only [if_true, hres]
      rw [fill_zip _ (by omega)]
    · exact lookup_aa_zip _ i k (by omega) hk

/-- Witness of C15: a data file of 20 fields for the scale Kyte. -/
theorem readScaleAA_table_witness :
    ∃ table,
      readScaleAA (fun _ => .ok "1\t0\t0\t0\t0\t0\t0\t0\t0\t0\t0\t0\t0\t0\t0\t0\t0\t0\t0\t0")
        (fun f => if f = "1" then .ok 1 else .ok 0) "Kyte" false = .ok table ∧
      table.length = 20 ∧
      ∀ (i : ℕ) (k : String), i < 20 → readScaleAA.aa[i]? = some k →
        List.lookup k table
          = ([1, 0, 0, 0, 0, 0, 0, 0, 0, 0, 0, 0, 0, 0, 0, 0, 0, 0, 0, 0] : List ℚ)[i]? :=
  (readScaleAA_table
    (fun _ => .ok "1\t0\t0\t0\t0\t0\t0\t0\t0\t0\t0\t0\t0\t0\t0\t0\t0\t0\t0\t0")
    (fun f => if f = "1" then .ok 1 else .ok 0) "Kyte"
    "1\t0\t0\t0\t0\t0\t0\t0\t0\t0\t0\t0\t0\t0\t0\t0\t0\t0\t0\t0"
    [1, 0, 0, 0, 0, 0, 0, 0, 0, 0, 0, 0, 0, 0, 0, 0, 0, 0, 0, 0] rfl rfl rfl).1

/-- Counterexample to C16 as stated: a data file with the two parseable fields
1 and 3 is not rejected; `readScaleAA` returns a table of two entries and no
error. -/
theorem readScaleAA_malformed_counterexample :
    readScaleAA.split "1\t3".data [] = ["1", "3"] ∧
    readScaleAA (fun _ => .ok "1\t3")
      (fun f => if f = "1" then .ok 1 else if f = "3" then .ok 3 else .error f)
      "Kyte" false = .ok [("A", 1), ("C", 3)] :=
  ⟨by decide, by rfl⟩

/-- C16, amended (malformed scale data): once the data file is read, a field
that does not parse makes `readScaleAA` return the error of the first such field
and no table; when all fields parse, more than 20 of them make it panic and 20
or fewer make it return a table with one entry per field; hence every table it
returns has as many entries as the data has fields, and at most 20. -/
theorem readScaleAA_malformed (readFile : String → Except String String)
    (parseField : String → Except String ℚ) (name content : String) (norm : Bool)
    (hread : readFile (readScaleAA.catalog name).1 = .ok content) :
    (∀ e, readScaleAA.parse parseField (readScaleAA.split content.data []) = .error e →
      readScaleAA readFile parseField name norm = .failed e) ∧
    (∀ values, readScaleAA.parse parseField (readScaleAA.split content.data []) = .ok values →
      values.length = (readScaleAA.split content.data []).length ∧
      (20 < values.length → readScaleAA readFile parseField name norm = .panicked) ∧
      (values.length ≤ 20 →
        ∃ table, readScaleAA readFile parseField name norm = .ok table ∧
          table.length = values.length)) ∧
    (∀ table, readScaleAA readFile parseField name norm = .ok table →
      table.length = (readScaleAA.split content.data []).length ∧ table.length ≤ 20) := by
  have haa : readScaleAA.aa.length = 20 := rfl
  have hok : ∀ values,
      readScaleAA.parse parseField (readScaleAA.split content.data []) = .ok values →
      values.length = (readScaleAA.split content.data []).length ∧
      (20 < values.length → readScaleAA readFile parseField name norm = .panicked) ∧
      (values.length ≤ 20 →
        ∃ table, readScaleAA readFile parseField name norm = .ok table ∧
          table.length = values.length) := by
    intro values hparse
    have hfields := parse_length parseField _ values hparse
    have hne : values ≠ [] := by
      intro h
      rw [h] at hfields
      exact split_ne_nil content.data [] (List.length_eq_zero.mp hfields.symm)
    obtain ⟨scaled, hscaled, hlen⟩ : ∃ scaled,
        (if norm then rescale values (readScaleAA.catalog name).2 else some values)
          = some scaled ∧ scaled.length = values.length := by
      cases norm
      · exact ⟨values, by simp, rfl⟩
      · obtain ⟨mn, mx, _, _, hres⟩ := rescale_eq values (readScaleAA.catalog name).2 hne
        exact ⟨_, by simpa using hres, by simp⟩
    have hrun := readScaleAA_of_parsed readFile parseField name content norm values hread hparse
    rw [hscaled] at hrun
    refine ⟨hfields, fun hbig => ?_, fun hsmall => ?_⟩
    · rw [hrun]
      simp only [fill_none scaled 0 [] (by omega) (by omega)]
    · refine ⟨List.zip readScaleAA.aa scaled, ?_, by simp [haa]; omega⟩
      rw [hrun]
      simp only [fill_zip scaled (by omega)]
  refine ⟨fun e hparse => ?_, hok, fun table htable => ?_⟩
  · simp only [readScaleAA, hread, hparse]
  · cases hparse : readScaleAA.parse parseField (readScaleAA.split content.data []) with
    | error e =>
      simp only [readScaleAA, hread, hparse] at htable
      exact absurd htable (by simp)
    | ok values =>
      obtain ⟨hfields, hbig, hsmall⟩ := hok values hparse
      rcases Nat.lt_or_ge 20 values.length with h | h
      · rw [hbig h] at htable
        exact absurd htable (by simp)
      · obtain ⟨t, ht, htlen⟩ := hsmall h
        rw [ht] at htable
        simp only [Outcome.ok.injEq] at htable
        subst htable
        exact ⟨by omega, by omega⟩

/-- Witness of the amended C16: two fields with `norm = true`. -/
theorem readScaleAA_malformed_witness :
    ∃ table,
      readScaleAA (fun _ => .ok "1\t3")
        (fun f => if f = "1" then .ok 1 else if f = "3" then .ok 3 else .error f)
        "Kyte" true = .ok table ∧ table.length = ([1, 3] : List ℚ).length :=
  ((readScaleAA_malformed (fun _ => .ok "1\t3")
    (fun f => if f = "1" then .ok 1 else if f = "3" then .ok 3 else .error f)
    "Kyte" "1\t3" true rfl).2.1 [1, 3] rfl).2.2 (by decide)

/-- Counterexample to C17 as stated: for the name Unknown, with a file system
where the empty path cannot be read, `readScaleAA` panics; it does not return an
error. -/
theorem readScaleAA_unknown_counterexample :
    "Unknown" ∉ catalogNames ∧
    readScaleAA
      (fun path => if path = "" then .error "open : no such file or directory" else .ok "1")
      (fun f => if f = "1" then .ok 1 else .error f) "Unknown" true = .panicked ∧
    readScaleAA
      (fun path => if path = "" then .error "open : no such file or directory" else .ok "1")
      (fun f => if f = "1" then .ok 1 else .error f) "Unknown" false = .panicked :=
  ⟨by decide, by rfl, by rfl⟩

/-- C17, amended (unknown scale names): for every name outside the catalog the
`switch` leaves the file name empty, and when the read of the empty path fails
`readScaleAA` panics with the read error: it returns neither a table nor an
error. -/
theorem readScaleAA_unknown (name : String) (hname : name ∉ catalogNames) :
    readScaleAA.catalog name = ("", false) ∧
    ∀ (readFile : String → Except String String) (parseField : String → Except String ℚ)
      (norm : Bool) (e : String),
      readFile "" = .error e → readScaleAA readFile parseField name norm = .panicked := by
  refine ⟨catalog_default name hname, fun readFile parseField norm e he => ?_⟩
  simp only [readScaleAA, catalog_default name hname, he]

/-- Witness of the amended C17: the name Hydro. -/
theorem readScaleAA_unknown_witness :
    "Hydro" ∉ catalogNames ∧
    readScaleAA.catalog "Hydro" = ("", false) ∧
    readScaleAA (fun path => if path = "" then .error "no such file" else .ok "1")
      (fun f => .error f) "Hydro" false = .panicked :=
  ⟨by decide, (readScaleAA_unknown "Hydro" (by decide)).1,
    (readScaleAA_unknown "Hydro" (by decide)).2
      (fun path => if path = "" then .error "no such file" else .ok "1")
      (fun f => .error f) false "no such file" rfl⟩

/-! ## Degenerate input, slice bounds and the range of the smoothed values -/

/-- C18 (degenerate input to `rescale`): for every non-empty list whose
elements are all equal, the scan ends with `max = min`, so the divisor
`max - min` and every numerator `v - min` are zero; `rescale` divides all the
same, and under IEEE-754 every output element is NaN, for both values of
`inv`. -/
theorem rescale_degenerate (values : List ℚ) (c : ℚ) (inv : Bool) (hne : values ≠ [])
    (hall : ∀ v ∈ values, v = c) :
    (∃ x rest, values = x :: rest ∧
      (rescale.scan rest (x, x)).1 - (rescale.scan rest (x, x)).2 = 0 ∧
      ∀ v ∈ values, v - (rescale.scan rest (x, x)).2 = 0) ∧
    rescale.ieee values inv = some (List.replicate values.length Float64.nan) := by
  cases values with
  | nil => exact absurd rfl hne
  | cons x rest =>
    have hx : x = c := hall x (List.mem_cons_self _ _)
    subst hx
    have hscan := scan_const rest x (fun v hv => hall v (List.mem_cons_of_mem _ hv))
    refine ⟨⟨x, rest, rfl, by rw [hscan]; simp, fun v hv => by rw [hscan, hall v hv]; simp⟩, ?_⟩
    have hmap : ∀ f : Float64 → Float64, f Float64.nan = Float64.nan →
        List.map (fun v => f (Float64.div (v - x) (x - x))) (x :: rest)
          = List.replicate (x :: rest).length Float64.nan := by
      intro f hf
      rw [List.eq_replicate_iff]
      refine ⟨by simp, fun b hb => ?_⟩
      obtain ⟨v, hv, rfl⟩ := List.mem_map.mp hb
      rw [hall v hv]
      simp [Float64.div, hf]
    cases inv
    · simp only [rescale.ieee, hscan, Bool.false_eq_true, if_false]
      exact congrArg some (hmap id rfl)
    · simp only [rescale.ieee, hscan, if_true]
      exact congrArg some (hmap Float64.oneMinus rfl)

/-- Witness of C18: the one-element list 5. -/
theorem rescale_degenerate_witness :
    (([5] : List ℚ) ≠ [] ∧ ∀ v ∈ ([5] : List ℚ), v = 5) ∧
    rescale.ieee [5] false = some [Float64.nan] :=
  ⟨⟨by simp, by simp⟩, (rescale_degenerate [5] 5 false (by simp) (by simp)).2⟩

/-- C19 (slice-bound safety of `Apply`): for every sequence of length `N ≥ 1`
and every width `sw` with `half = sw / 2`, the slices `hydro[b:e]` of all indices
satisfy `0 ≤ b < e ≤ N` if and only if `N ≥ 2 * half`, which is also when `Apply`
returns; when `N < 2 * half` some left-edge index takes `hydro[0:i+half+1]` with
`i + half + 1 > N`, and `Apply` panics. -/
theorem Apply_slice_bounds (sc : ScaleAA) (seq : List UInt8) (sw : ℕ)
    (hn : 1 ≤ seq.length) :
    ((∀ i : ℕ, i < seq.length →
        ∃ b e, Apply.bounds seq.length sw i = some (b, e) ∧
          0 ≤ b ∧ b < e ∧ e ≤ (seq.length : ℤ))
      ↔ 2 * (sw / 2) ≤ seq.length) ∧
    ((∃ raw smoothed, Apply sc seq (sw : ℤ) = some (raw, smoothed))
      ↔ 2 * (sw / 2) ≤ seq.length) ∧
    (seq.length < 2 * (sw / 2) →
      ∃ i : ℕ, i < seq.length ∧ Apply.leftEdge sw i = true ∧
        Apply.bounds seq.length sw i = some (0, (i : ℤ) + ((sw / 2 : ℕ) : ℤ) + 1) ∧
        seq.length < i + sw / 2 + 1 ∧
        Apply sc seq (sw : ℤ) = none) := by
  refine ⟨⟨fun hall => ?_, fun hfit i hi => bounds_of_fits seq.length sw i hfit hi⟩,
    ⟨fun hret => ?_, fun hfit => ⟨_, _, Apply_of_fits sc seq sw hfit⟩⟩, fun hshort => ?_⟩
  · by_contra hlt
    obtain ⟨i, hi, _, hb, hbig⟩ := bounds_of_short seq.length sw hn (by omega)
    obtain ⟨b, e, hbe, _, _, he⟩ := hall i hi
    rw [hb] at hbe
    simp only [Option.some.injEq, Prod.mk.injEq] at hbe
    omega
  · by_contra hlt
    obtain ⟨raw, smoothed, h⟩ := hret
    rw [Apply_of_short sc seq sw hn (by omega)] at h
    exact absurd h (by simp)
  · obtain ⟨i, hi, hl, hb, hbig⟩ := bounds_of_short seq.length sw hn hshort
    exact ⟨i, hi, hl, hb, hbig, Apply_of_short sc seq sw hn hshort⟩

/-- Witness of C19: length 3, width 7; index 0 takes `hydro[0:4]`. -/
theorem Apply_slice_bounds_witness :
    (1 ≤ ([65, 67, 68] : List UInt8).length ∧
      ([65, 67, 68] : List UInt8).length < 2 * (7 / 2)) ∧
    Apply.bounds 3 7 0 = some (0, 4) ∧
    ∃ i : ℕ, i < ([65, 67, 68] : List UInt8).length ∧ Apply.leftEdge ((7 : ℕ) : ℤ) i = true ∧
      Apply.bounds ([65, 67, 68] : List UInt8).length ((7 : ℕ) : ℤ) i
        = some (0, (i : ℤ) + ((7 / 2 : ℕ) : ℤ) + 1) ∧
      ([65, 67, 68] : List UInt8).length < i + 7 / 2 + 1 ∧
      Apply [("A", 1)] [65, 67, 68] ((7 : ℕ) : ℤ) = none :=
  ⟨by decide, by decide,
    (Apply_slice_bounds [("A", 1)] [65, 67, 68] 7 (by decide)).2.2 (by decide)⟩

/-- C20 (smoothing stays within the raw values): for every table, every
sequence of length `N ≥ 1` and every width `sw` with `N ≥ 2 * (sw / 2)`, `Apply`
returns and every `smoothed[i]` lies between the least and the greatest element
of `raw`; and when every value of the table is in `[0, 1]`, so is every raw and
every smoothed value. -/
theorem Apply_smoothed_range (sc : ScaleAA) (seq : List UInt8) (sw : ℕ)
    (hn : 1 ≤ seq.length) (hN : 2 * (sw / 2) ≤ seq.length) :
    ∃ raw smoothed, Apply sc seq (sw : ℤ) = some (raw, smoothed) ∧
      (∃ mn mx, IsMinOf raw mn ∧ IsMaxOf raw mx ∧ ∀ y ∈ smoothed, mn ≤ y ∧ y ≤ mx) ∧
      ((∀ p ∈ sc, 0 ≤ p.2 ∧ p.2 ≤ 1) →
        (∀ x ∈ raw, 0 ≤ x ∧ x ≤ 1) ∧ ∀ y ∈ smoothed, 0 ≤ y ∧ y ≤ 1) := by
  have hlen := rawLookup_length sc seq
  have hmean : ∀ (lo hi : ℚ), (∀ x ∈ Apply.rawLookup sc seq, lo ≤ x ∧ x ≤ hi) →
      ∀ y ∈ (List.range seq.length).map
          (fun i => Mean (window (Apply.rawLookup sc seq) (sw / 2) i)),
        lo ≤ y ∧ y ≤ hi := by
    intro lo hi hb y hy
    obtain ⟨i, hi', rfl⟩ := List.mem_map.mp hy
    have hi'' : i < (Apply.rawLookup sc seq).length := by
      rw [hlen]; exact List.mem_range.mp hi'
    obtain ⟨hne, hsub⟩ := window_spec (Apply.rawLookup sc seq) (sw / 2) i (by omega) hi''
    exact Mean_bounds _ lo hi hne (fun x hx => hb x (hsub x hx))
  refine ⟨_, _, Apply_of_fits sc seq sw hN, ?_, fun htab => ?_⟩
  · have hne : Apply.rawLookup sc seq ≠ [] := by
      intro h
      rw [h] at hlen
      simp only [List.length_nil] at hlen
      omega
    obtain ⟨mn, mx, hmn, hmx⟩ := exists_extrema hne
    exact ⟨mn, mx, hmn, hmx, hmean mn mx (fun x hx => ⟨hmn.2 x hx, hmx.2 x hx⟩)⟩
  · have hraw : ∀ x ∈ Apply.rawLookup sc seq, 0 ≤ x ∧ x ≤ 1 := by
      intro x hx
      obtain ⟨b, _, rfl⟩ := List.mem_map.mp hx
      exact index_unit sc _ htab
    exact ⟨hraw, hmean 0 1 hraw⟩

/-- Witness of C20: a sequence with the unknown residue X, width 5. -/
theorem Apply_smoothed_range_witness :
    (1 ≤ ([65, 88, 67, 65, 67] : List UInt8).length ∧
      2 * (5 / 2) ≤ ([65, 88, 67, 65, 67] : List UInt8).length) ∧
    ∃ raw smoothed,
      Apply [("A", 1 / 4), ("C", 1)] [65, 88, 67, 65, 67] ((5 : ℕ) : ℤ) = some (raw, smoothed) ∧
      (∃ mn mx, IsMinOf raw mn ∧ IsMaxOf raw mx ∧ ∀ y ∈ smoothed, mn ≤ y ∧ y ≤ mx) ∧
      ((∀ p ∈ ([("A", 1 / 4), ("C", 1)] : ScaleAA), 0 ≤ p.2 ∧ p.2 ≤ 1) →
        (∀ x ∈ raw, 0 ≤ x ∧ x ≤ 1) ∧ ∀ y ∈ smoothed, 0 ≤ y ∧ y ≤ 1) :=
  ⟨by decide, Apply_smoothed_range [("A", 1 / 4), ("C", 1)] [65, 88, 67, 65, 67] 5
    (by decide) (by decide)⟩

end GPHydro
